import Mathlib

/-!
Verification of the icosphere generator (src/icosphere.rs).

The program generates a triangulated sphere by subdividing a regular
icosahedron.  Its arithmetic is f32; every branch the code takes on the
base-icosahedron data is decided by margins (a 0.1 length tolerance, sign
tests on values bounded away from zero, or exact both-sides-zero tests made
through an == 0.0 comparison that an IEEE minus zero also satisfies) that
are many orders of magnitude wider than f32 rounding error, so we embed the
computation in exact arithmetic: the ring Z[tau] generated by the golden
ratio for the base polyhedron (all twelve vertex coordinates live there) and
real numbers for the subdivision geometry.  Indices are embedded as
unbounded naturals; the one place the source can truncate an index (the
`index as u32` cast) is modelled separately for the error-handling claim.
-/

/-- Elements of the ring Z[tau] where tau = (1 + sqrt 5) / 2 is the golden
ratio of line 88 (tau * tau = tau + 1); an element is a + b * tau with
integer coefficients.  All coordinate arithmetic of `create_icosahedron` is
exact and kernel-decidable here. -/
structure GR where
  a : ℤ
  b : ℤ
deriving DecidableEq, Repr

namespace GR

def add (x y : GR) : GR := ⟨x.a + y.a, x.b + y.b⟩

def sub (x y : GR) : GR := ⟨x.a - y.a, x.b - y.b⟩

def neg (x : GR) : GR := ⟨-x.a, -x.b⟩

def mul (x y : GR) : GR := ⟨x.a * y.a + x.b * y.b, x.a * y.b + x.b * y.a + x.b * y.b⟩

instance : Add GR := ⟨add⟩

instance : Sub GR := ⟨sub⟩

instance : Neg GR := ⟨neg⟩

instance : Mul GR := ⟨mul⟩

instance (n : ℕ) : OfNat GR n := ⟨⟨n, 0⟩⟩

/-- The golden ratio tau = (1 + sqrt 5) / 2 itself. -/
def tau : GR := ⟨0, 1⟩

/-- Positivity of a + b * tau, phrased decidably over the integers: with
A = 2a + b and B = b the value equals (A + B * sqrt 5) / 2. -/
def pos (x : GR) : Prop :=
  (0 ≤ x.b ∧ (0 < 2 * x.a + x.b ∨ (2 * x.a + x.b) ^ 2 < 5 * x.b ^ 2)) ∨
    (x.b < 0 ∧ 0 < 2 * x.a + x.b ∧ 5 * x.b ^ 2 < (2 * x.a + x.b) ^ 2)

instance (x : GR) : Decidable x.pos := by unfold pos; exact inferInstance

/-- The real value of an element of Z[tau]. -/
noncomputable def toReal (x : GR) : ℝ := x.a + x.b * ((1 + Real.sqrt 5) / 2)

theorem sqrt5_sq : Real.sqrt 5 ^ 2 = 5 := Real.sq_sqrt (by norm_num)

theorem sqrt5_pos : (0 : ℝ) < Real.sqrt 5 := Real.sqrt_pos.mpr (by norm_num)

theorem toReal_add (x y : GR) : (x + y).toReal = x.toReal + y.toReal := by
  show (add x y).toReal = _
  simp only [add, toReal]
  push_cast
  ring

theorem toReal_sub (x y : GR) : (x - y).toReal = x.toReal - y.toReal := by
  show (sub x y).toReal = _
  simp only [sub, toReal]
  push_cast
  ring

theorem toReal_neg (x : GR) : (neg x).toReal = -x.toReal := by
  simp only [neg, toReal]
  push_cast
  ring

theorem toReal_mul (x y : GR) : (x * y).toReal = x.toReal * y.toReal := by
  show (mul x y).toReal = _
  simp only [mul, toReal]
  push_cast
  have h5 := sqrt5_sq
  linear_combination (-((x.b : ℝ) * y.b) / 4) * h5

theorem toReal_ofNat (n : ℕ) : (OfNat.ofNat n : GR).toReal = n := by
  show ((⟨(n : ℤ), 0⟩ : GR)).toReal = n
  simp [toReal]

theorem toReal_zero : (0 : GR).toReal = 0 := by
  simpa using toReal_ofNat 0

/-- Positivity in the decidable representation agrees with positivity of the
real value. -/
theorem pos_iff (x : GR) : x.pos ↔ 0 < x.toReal := by
  have hs2 := sqrt5_sq
  have hs0 := sqrt5_pos
  set s := Real.sqrt 5 with hs
  have key : x.toReal = ((2 * x.a + x.b : ℤ) + (x.b : ℤ) * s) / 2 := by
    unfold toReal
    push_cast
    ring
  set A : ℤ := 2 * x.a + x.b with hA
  set B : ℤ := x.b with hB
  have hval : 0 < x.toReal ↔ 0 < (A : ℝ) + (B : ℝ) * s := by
    rw [key]
    constructor
    · intro h; nlinarith
    · intro h; nlinarith
  rw [hval]
  constructor
  · rintro (⟨hb, hab⟩ | ⟨hb, hxa, hab⟩)
    · have hb' : (0 : ℝ) ≤ (B : ℝ) := by exact_mod_cast hb
      rcases hab with hxa | hsq
      · have hxa' : (0 : ℝ) < (A : ℝ) := by exact_mod_cast hxa
        nlinarith [mul_nonneg hb' hs0.le]
      · have hsq' : ((A : ℝ)) ^ 2 < 5 * ((B : ℝ)) ^ 2 := by exact_mod_cast hsq
        nlinarith [mul_nonneg hb' hs0.le, sq_nonneg ((B : ℝ) * s - A)]
    · have hb' : ((B : ℝ)) < 0 := by exact_mod_cast hb
      have hxa' : (0 : ℝ) < (A : ℝ) := by exact_mod_cast hxa
      have hsq' : 5 * ((B : ℝ)) ^ 2 < ((A : ℝ)) ^ 2 := by exact_mod_cast hab
      nlinarith [mul_pos (neg_pos.mpr hb') hs0]
  · intro h
    rcases le_or_lt 0 B with hb | hb
    · left
      refine ⟨hb, ?_⟩
      by_cases hxa : 0 < A
      · exact Or.inl hxa
      · right
        push_neg at hxa
        have hxa' : ((A : ℝ)) ≤ 0 := by exact_mod_cast hxa
        have hb' : (0 : ℝ) ≤ (B : ℝ) := by exact_mod_cast hb
        have : ((A : ℝ)) ^ 2 < 5 * ((B : ℝ)) ^ 2 := by
          nlinarith [mul_nonneg hb' hs0.le]
        exact_mod_cast this
    · right
      have hb' : ((B : ℝ)) < 0 := by exact_mod_cast hb
      have hxa : (0 : ℝ) < (A : ℝ) := by
        nlinarith [mul_pos (neg_pos.mpr hb') hs0]
      have hsq : 5 * ((B : ℝ)) ^ 2 < ((A : ℝ)) ^ 2 := by
        nlinarith [mul_pos (neg_pos.mpr hb') hs0]
      refine ⟨hb, by exact_mod_cast hxa, by exact_mod_cast hsq⟩

end GR

/-- Three-component vectors over an arbitrary coordinate type, the shape of
cgmath's Vector3 used throughout the source. -/
structure V3 (α : Type) where
  x : α
  y : α
  z : α
deriving DecidableEq, Repr

namespace V3

def add {α : Type} [Add α] (u v : V3 α) : V3 α := ⟨u.x + v.x, u.y + v.y, u.z + v.z⟩

def sub {α : Type} [Sub α] (u v : V3 α) : V3 α := ⟨u.x - v.x, u.y - v.y, u.z - v.z⟩

def smul {α : Type} [Mul α] (c : α) (v : V3 α) : V3 α := ⟨c * v.x, c * v.y, c * v.z⟩

/-- Componentwise cross product, as computed by cgmath's Vector3::cross. -/
def cross {α : Type} [Mul α] [Sub α] (u v : V3 α) : V3 α :=
  ⟨u.y * v.z - u.z * v.y, u.z * v.x - u.x * v.z, u.x * v.y - u.y * v.x⟩

def dot {α : Type} [Add α] [Mul α] (u v : V3 α) : α := u.x * v.x + u.y * v.y + u.z * v.z

/-- Squared magnitude; magnitude in the source is the square root of this. -/
def quad {α : Type} [Add α] [Mul α] (v : V3 α) : α := dot v v

end V3

/-- The twelve base icosahedron vertices of create_icosahedron (lines 90-105),
with exact golden-ratio coordinates. -/
def icoVertices : List (V3 GR) :=
  [⟨1, GR.tau, 0⟩, ⟨1, -GR.tau, 0⟩, ⟨-1, -GR.tau, 0⟩, ⟨-1, GR.tau, 0⟩,
   ⟨0, 1, GR.tau⟩, ⟨0, 1, -GR.tau⟩, ⟨0, -1, -GR.tau⟩, ⟨0, -1, GR.tau⟩,
   ⟨GR.tau, 0, 1⟩, ⟨-GR.tau, 0, 1⟩, ⟨-GR.tau, 0, -1⟩, ⟨GR.tau, 0, -1⟩]

/-- Vertex access vertices[i] of the builder; every use is in range. -/
def icoAt (i : ℕ) : V3 GR := icoVertices.getD i ⟨0, 0, 0⟩

/-- Decidable form of the tolerance test of lines 120-122: the magnitude
(square root of q) satisfies (2 - magnitude).abs() < 0.1, phrased on the
squared magnitude as 3.61 < q < 4.41 and scaled by 100 to stay in Z[tau].
Lemma magNearTwo_iff proves the two forms equivalent for the real value. -/
def magNearTwo (q : GR) : Prop :=
  GR.pos (100 * q - 361) ∧ GR.pos (441 - 100 * q)

instance (q : GR) : Decidable (magNearTwo q) := by unfold magNearTwo; exact inferInstance

/-- Model of f32 is_sign_positive on an exactly computed value: the sign bit
is clear iff the value is positive or zero.  (On the base icosahedron data,
every component whose exact value is zero is compared by the source only
through the both-sides-zero disjunct of line 127, where an IEEE minus zero
still satisfies == 0.0, so the sign chosen here for exact zeros never
influences a branch the source takes.) -/
def signPositive (x : GR) : Prop := ¬ GR.pos (GR.neg x)

instance (x : GR) : Decidable (signPositive x) := by unfold signPositive; exact inferInstance

/-- Per-axis agreement test of lines 127-132: both components zero, or equal
sign bits. -/
def axisAgree (c e : GR) : Prop := (c = 0 ∧ e = 0) ∨ (signPositive c ↔ signPositive e)

instance (c e : GR) : Decidable (axisAgree c e) := by unfold axisAgree; exact inferInstance

/-- Edge-length filter of lines 114-122 for the triple (i, j, k). -/
def edgeLensOK (i j k : ℕ) : Prop :=
  magNearTwo (V3.quad (V3.sub (icoAt j) (icoAt i))) ∧
    magNearTwo (V3.quad (V3.sub (icoAt k) (icoAt i))) ∧
      magNearTwo (V3.quad (V3.sub (icoAt k) (icoAt j)))

instance (i j k : ℕ) : Decidable (edgeLensOK i j k) := by unfold edgeLensOK; exact inferInstance

/-- Winding test of lines 124-132: per-axis sign agreement between the cross
product of the two edge vectors and the sum of the three vertices. -/
def windingAgrees (i j k : ℕ) : Prop :=
  axisAgree (V3.cross (V3.sub (icoAt j) (icoAt i)) (V3.sub (icoAt k) (icoAt i))).x
      (V3.add (V3.add (icoAt i) (icoAt j)) (icoAt k)).x ∧
    axisAgree (V3.cross (V3.sub (icoAt j) (icoAt i)) (V3.sub (icoAt k) (icoAt i))).y
        (V3.add (V3.add (icoAt i) (icoAt j)) (icoAt k)).y ∧
      axisAgree (V3.cross (V3.sub (icoAt j) (icoAt i)) (V3.sub (icoAt k) (icoAt i))).z
          (V3.add (V3.add (icoAt i) (icoAt j)) (icoAt k)).z

instance (i j k : ℕ) : Decidable (windingAgrees i j k) := by
  unfold windingAgrees; exact inferInstance

/-- The three indices pushed for a qualifying triple (lines 127-141): (i, k, j)
when the winding test agrees, (i, j, k) otherwise. -/
def faceBlock (i j k : ℕ) : List ℕ :=
  if windingAgrees i j k then [i, k, j] else [i, j, k]

/-- The index list built by the triple loop of lines 106-145. -/
def icoIndices : List ℕ :=
  (List.range 12).flatMap fun i =>
    (List.range 12).flatMap fun j =>
      (List.range 12).flatMap fun k =>
        if i < j ∧ j < k then (if edgeLensOK i j k then faceBlock i j k else []) else []

/-- create_icosahedron (lines 87-148): the twelve vertices and the discovered
face indices. -/
def create_icosahedron : List (V3 GR) × List ℕ := (icoVertices, icoIndices)

/-- Canonicalization of an index pair, the in-place swap of lines 22-24:
the smaller index first. -/
def canon (a b : ℕ) : ℕ × ℕ := if b < a then (b, a) else (a, b)

/-- The state captured by the get_middle_point closure (lines 20-21): the
vertex sequence and the midpoint cache.  The HashMap is embedded as an
association list consulted only through lookup; the determinism claim
proves that any lookup-equivalent representation yields the same output. -/
structure MidCache (V : Type) where
  verts : List V
  cache : List ((ℕ × ℕ) × ℕ)

/-- get_middle_point (lines 21-39).  The midpoint computation
(p0 + 0.5 * (p1 - p0)).normalize_to(radius) of line 31 is the parameter mid,
instantiated with midR for the real program; the subdivision bookkeeping is
independent of it.  Vertex indices are unbounded naturals here; the source's
`index as u32` cast of lines 35-36 is modelled with the error-handling
claim. -/
def get_middle_point {V : Type} [Inhabited V] (mid : V → V → V) (c : MidCache V)
    (p0idx p1idx : ℕ) : MidCache V × ℕ :=
  let p := canon p0idx p1idx
  match c.cache.lookup p with
  | some m => (c, m)
  | none =>
    let v0 := c.verts.getD p.1 default
    let v1 := c.verts.getD p.2 default
    let idx := c.verts.length
    (⟨c.verts ++ [mid v0 v1], c.cache ++ [(p, idx)]⟩, idx)

/-- Full generation state: the closure state plus the index buffer. -/
structure MeshState (V : Type) where
  mc : MidCache V
  indices : List ℕ

/-- Body of the per-face loop of lines 42-76: read the face at offset 3f,
request the three midpoints, rewrite slots offset+1 and offset+2 in place,
and push the three new faces. -/
def processFace {V : Type} [Inhabited V] (mid : V → V → V) (s : MeshState V) (f : ℕ) :
    MeshState V :=
  let off := f * 3
  let p0 := s.indices.getD off 0
  let p1 := s.indices.getD (off + 1) 0
  let p2 := s.indices.getD (off + 2) 0
  let r3 := get_middle_point mid s.mc p0 p1
  let r4 := get_middle_point mid r3.1 p1 p2
  let r5 := get_middle_point mid r4.1 p2 p0
  ⟨r5.1,
    ((s.indices.set (off + 1) r3.2).set (off + 2) r5.2) ++
      [r3.2, p1, r4.2, r5.2, r4.2, p2, r4.2, r5.2, r3.2]⟩

/-- One subdivision level (lines 42-76): the loop over face offsets
0, 3, ..., 3*(numFaces-1), with numFaces captured before any push. -/
def levelStep {V : Type} [Inhabited V] (mid : V → V → V) (s : MeshState V)
    (numFaces : ℕ) : MeshState V :=
  (List.range numFaces).foldl (processFace mid) s

/-- The level loop of lines 41-78, multiplying num_faces by 4 after each
level. -/
def subdivideLevels {V : Type} [Inhabited V] (mid : V → V → V) :
    MeshState V → ℕ → ℕ → MeshState V
  | s, _, 0 => s
  | s, nf, l + 1 => subdivideLevels mid (levelStep mid s nf) (nf * 4) l

/-- icosphere (lines 6-84) with the midpoint computation and the base vertex
representation as parameters: create_icosahedron, then subdivison_level
rounds of subdivision starting from num_faces = 20. -/
def icosphereModel {V : Type} [Inhabited V] (mid : V → V → V) (bv : List V)
    (level : ℕ) : MeshState V :=
  subdivideLevels mid ⟨⟨bv, []⟩, icoIndices⟩ 20 level

instance : Inhabited (V3 ℝ) := ⟨⟨0, 0, 0⟩⟩

/-- Real values of the base vertices. -/
noncomputable def toR3 (v : V3 GR) : V3 ℝ := ⟨v.x.toReal, v.y.toReal, v.z.toReal⟩

/-- Magnitude, cgmath's sqrt of the dot square. -/
noncomputable def magR (v : V3 ℝ) : ℝ := Real.sqrt (V3.quad v)

/-- cgmath normalize_to: self * (radius / self.magnitude()). -/
noncomputable def normalizeTo (r : ℝ) (v : V3 ℝ) : V3 ℝ := V3.smul (r / magR v) v

noncomputable def baseVertsR : List (V3 ℝ) := icoVertices.map toR3

/-- The fixed sphere radius of line 9: vertices[0].magnitude(). -/
noncomputable def radiusR : ℝ := magR (baseVertsR.getD 0 default)

/-- The midpoint computation of line 31:
(p0 + 0.5 * (p1 - p0)).normalize_to(radius). -/
noncomputable def midR (p0 p1 : V3 ℝ) : V3 ℝ :=
  normalizeTo radiusR (V3.add p0 (V3.smul (1 / 2) (V3.sub p1 p0)))

/-- The icosphere program at subdivision level L, over exact real geometry.
The final `.map(|v| v.into())` of line 83 repackages each vertex with
identical coordinates, so the vertex list of this state is the returned
vertex sequence. -/
noncomputable def icosphereR (level : ℕ) : MeshState (V3 ℝ) :=
  icosphereModel midR baseVertsR level

/-- Lookup-equivalence of two association-list representations of the
midpoint cache: the HashMap of line 20 is consulted only through get, so any
two representations agreeing on every lookup are interchangeable. -/
def cacheEquiv (c1 c2 : List ((ℕ × ℕ) × ℕ)) : Prop :=
  ∀ e, c1.lookup e = c2.lookup e

/-- Grouping of the flat index buffer into consecutive index triples. -/
def facesOf : List ℕ → List (ℕ × ℕ × ℕ)
  | a :: b :: c :: rest => (a, b, c) :: facesOf rest
  | _ => []

/-- Flattening of a face list back into the index buffer. -/
def flatOf (fs : List (ℕ × ℕ × ℕ)) : List ℕ := fs.flatMap fun t => [t.1, t.2.1, t.2.2]

/-- The three canonical (undirected) edges of a face. -/
def edgesOf (t : ℕ × ℕ × ℕ) : List (ℕ × ℕ) :=
  [canon t.1 t.2.1, canon t.2.1 t.2.2, canon t.2.2 t.1]

def allEdges (fs : List (ℕ × ℕ × ℕ)) : List (ℕ × ℕ) := fs.flatMap edgesOf

/-- The three directed boundary edges of a face. -/
def dirEdges (t : ℕ × ℕ × ℕ) : List (ℕ × ℕ) := [(t.1, t.2.1), (t.2.1, t.2.2), (t.2.2, t.1)]

def allDirEdges (fs : List (ℕ × ℕ × ℕ)) : List (ℕ × ℕ) := fs.flatMap dirEdges

def vertexSet (t : ℕ × ℕ × ℕ) : Finset ℕ := {t.1, t.2.1, t.2.2}

def keysOf (c : List ((ℕ × ℕ) × ℕ)) : List (ℕ × ℕ) := c.map Prod.fst

def valsOf (c : List ((ℕ × ℕ) × ℕ)) : List ℕ := c.map Prod.snd

/-- Index assigned to an edge by a cache (0 if absent; used only on present
keys). -/
def lookupIdx (c : List ((ℕ × ℕ) × ℕ)) (e : ℕ × ℕ) : ℕ := (c.lookup e).getD 0

/-- The three midpoint requests of one face (lines 58-60). -/
def faceMids {V : Type} [Inhabited V] (mid : V → V → V) (c : MidCache V)
    (t : ℕ × ℕ × ℕ) : MidCache V × (ℕ × ℕ × ℕ) :=
  let r3 := get_middle_point mid c t.1 t.2.1
  let r4 := get_middle_point mid r3.1 t.2.1 t.2.2
  let r5 := get_middle_point mid r4.1 t.2.2 t.1
  (r5.1, (r3.2, r4.2, r5.2))

/-- In-place rewrite of a face (lines 62-63): (p0, p3, p5). -/
def rwFace (m t : ℕ × ℕ × ℕ) : ℕ × ℕ × ℕ := (t.1, m.1, m.2.2)

/-- The three appended faces of one subdivision (lines 65-75):
(p3, p1, p4), (p5, p4, p2), (p4, p5, p3), in push order. -/
def apFaces (m t : ℕ × ℕ × ℕ) : List (ℕ × ℕ × ℕ) :=
  [(m.1, t.2.1, m.2.1), (m.2.2, m.2.1, t.2.2), (m.2.1, m.2.2, m.1)]

/-- Face-level description of one subdivision level: returns the final
closure state, the in-place rewritten faces, and the appended faces in push
order.  Lemma levelStep_eq identifies levelStep with this description. -/
def levelFaces {V : Type} [Inhabited V] (mid : V → V → V) :
    MidCache V → List (ℕ × ℕ × ℕ) → MidCache V × List (ℕ × ℕ × ℕ) × List (ℕ × ℕ × ℕ)
  | c, [] => (c, [], [])
  | c, t :: ts =>
    let r := faceMids mid c t
    let rest := levelFaces mid r.1 ts
    (rest.1, rwFace r.2 t :: rest.2.1, apFaces r.2 t ++ rest.2.2)

/-- The midpoint triple of a face under an edge-to-index assignment. -/
def midOf (μ : ℕ × ℕ → ℕ) (t : ℕ × ℕ × ℕ) : ℕ × ℕ × ℕ :=
  (μ (canon t.1 t.2.1), μ (canon t.2.1 t.2.2), μ (canon t.2.2 t.1))

/-- All faces after one level, under an edge-to-index assignment: rewritten
faces first (in their original slots), then the appended ones. -/
def childrenOf (μ : ℕ × ℕ → ℕ) (fs : List (ℕ × ℕ × ℕ)) : List (ℕ × ℕ × ℕ) :=
  fs.map (fun t => rwFace (midOf μ t) t) ++ fs.flatMap (fun t => apFaces (midOf μ t) t)

/-- Combinatorial well-formedness of a face list over n vertices: corners in
range and pairwise distinct, directed edges pairwise distinct and closed
under reversal (each undirected edge bounds exactly two faces, with opposite
orientations), and no two faces with the same vertex set. -/
def goodFaces (n : ℕ) (fs : List (ℕ × ℕ × ℕ)) : Prop :=
  (∀ t ∈ fs, (t.1 < n ∧ t.2.1 < n ∧ t.2.2 < n) ∧
      t.1 ≠ t.2.1 ∧ t.2.1 ≠ t.2.2 ∧ t.2.2 ≠ t.1) ∧
    (allDirEdges fs).Nodup ∧
      (∀ e ∈ allDirEdges fs, (e.2, e.1) ∈ allDirEdges fs) ∧
        fs.Pairwise fun s t => vertexSet s ≠ vertexSet t

instance (n : ℕ) (fs : List (ℕ × ℕ × ℕ)) : Decidable (goodFaces n fs) := by
  unfold goodFaces
  exact inferInstance

/-- Invariant carried from level to level: the buffer holds exactly nf
faces, they are combinatorially good, the cache keys are distinct canonical
pairs whose endpoints all lie below some bound B that every current edge
reaches (so no current edge is cached), and cache values are valid vertex
indices. -/
def goodMesh {V : Type} (s : MeshState V) (nf : ℕ) : Prop :=
  s.indices.length = 3 * nf ∧
    goodFaces s.mc.verts.length (facesOf s.indices) ∧
      (keysOf s.mc.cache).Nodup ∧
        ∃ B ≤ s.mc.verts.length,
          (∀ kv ∈ s.mc.cache, kv.1.1 < kv.1.2 ∧ kv.1.2 < B ∧ kv.2 < s.mc.verts.length) ∧
            ∀ t ∈ facesOf s.indices, ∀ e ∈ edgesOf t, B ≤ e.2

/-- Geometric invariant for the real program: every vertex lies on the
sphere of radius radiusR (stated on the dot square), and the corner
positions of every face have pairwise positive dot products (so no midpoint
is ever the zero vector and normalization is sound). -/
def geomGood (s : MeshState (V3 ℝ)) : Prop :=
  (∀ v ∈ s.mc.verts, V3.dot v v = radiusR ^ 2) ∧
    ∀ t ∈ facesOf s.indices,
      0 < V3.dot (s.mc.verts.getD t.1 default) (s.mc.verts.getD t.2.1 default) ∧
        0 < V3.dot (s.mc.verts.getD t.2.1 default) (s.mc.verts.getD t.2.2 default) ∧
          0 < V3.dot (s.mc.verts.getD t.2.2 default) (s.mc.verts.getD t.1 default)

/-- Truncation performed by the `index as u32` casts of lines 35-36. -/
def u32cast (n : ℕ) : ℕ := n % 2 ^ 32

/-- Wrap-around of usize arithmetic (release profile) on a 64-bit target. -/
def usizeWrap (n : ℕ) : ℕ := n % 2 ^ 64

/-- Wrapping usize subtraction. -/
def usizeWrapSub (m n : ℕ) : ℕ := (m + 2 ^ 64 - usizeWrap n) % 2 ^ 64

/-- Line 13: final_faces = num_faces * 4usize.pow(level), with wrapping
usize arithmetic. -/
def finalFacesModel (level : ℕ) : ℕ := usizeWrap (20 * usizeWrap (4 ^ level))

/-- Line 15: final_vertices = 2 + (final_faces * 3 / 2) - final_faces, with
wrapping usize arithmetic. -/
def finalVerticesModel (level : ℕ) : ℕ :=
  usizeWrapSub (usizeWrap (2 + usizeWrap (finalFacesModel level * 3) / 2)) (finalFacesModel level)

/-- Line 16: final_indices = final_faces * 3, with wrapping usize
arithmetic. -/
def finalIndicesModel (level : ℕ) : ℕ := usizeWrap (finalFacesModel level * 3)

/-- Membership among the three corners of a face. -/
def cornerOf (x : ℕ) (t : ℕ × ℕ × ℕ) : Prop := x = t.1 ∨ x = t.2.1 ∨ x = t.2.2

/-- The four child faces of one face under an edge assignment, rewritten
child first. -/
def childAll (μ : ℕ × ℕ → ℕ) (t : ℕ × ℕ × ℕ) : List (ℕ × ℕ × ℕ) :=
  rwFace (midOf μ t) t :: apFaces (midOf μ t) t

/-- The twelve directed edges of the four child faces of one face. -/
def childDirEdges (μ : ℕ × ℕ → ℕ) (t : ℕ × ℕ × ℕ) : List (ℕ × ℕ) :=
  (childAll μ t).flatMap dirEdges

/-- The explicit face list found by the brute-force search, verified by
kernel evaluation of the exact golden-ratio arithmetic. -/
theorem icoIndices_eq :
    icoIndices =
      [0, 4, 3, 0, 3, 5, 0, 8, 4, 0, 5, 11, 0, 11, 8,
       1, 6, 2, 1, 2, 7, 1, 11, 6, 1, 7, 8, 1, 8, 11,
       2, 6, 10, 2, 9, 7, 2, 10, 9, 3, 4, 9, 3, 10, 5,
       3, 9, 10, 4, 8, 7, 4, 7, 9, 5, 10, 6, 5, 6, 11] := by decide

/-- The decidable tolerance predicate coincides with the source's test
(2 - magnitude).abs() < 0.1 on the real value of the squared magnitude. -/
theorem magNearTwo_iff (q : GR) (h : 0 ≤ q.toReal) :
    magNearTwo q ↔ |2 - Real.sqrt q.toReal| < 1 / 10 := by
  have e1 : (100 * q - 361 : GR).toReal = 100 * q.toReal - 361 := by
    rw [GR.toReal_sub, GR.toReal_mul, GR.toReal_ofNat, GR.toReal_ofNat]
    norm_num
  have e2 : (441 - 100 * q : GR).toReal = 441 - 100 * q.toReal := by
    rw [GR.toReal_sub, GR.toReal_mul, GR.toReal_ofNat, GR.toReal_ofNat]
    norm_num
  have ht : Real.sqrt q.toReal ^ 2 = q.toReal := Real.sq_sqrt h
  have ht0 : 0 ≤ Real.sqrt q.toReal := Real.sqrt_nonneg _
  unfold magNearTwo
  rw [GR.pos_iff, GR.pos_iff, e1, e2]
  set t := Real.sqrt q.toReal with hts
  constructor
  · rintro ⟨h1, h2⟩
    rw [abs_lt]
    constructor
    · nlinarith
    · nlinarith
  · intro hab
    rw [abs_lt] at hab
    obtain ⟨h1, h2⟩ := hab
    constructor
    · nlinarith
    · nlinarith

theorem keysOf_append (c d : List ((ℕ × ℕ) × ℕ)) :
    keysOf (c ++ d) = keysOf c ++ keysOf d := List.map_append _ _ _

theorem valsOf_append (c d : List ((ℕ × ℕ) × ℕ)) :
    valsOf (c ++ d) = valsOf c ++ valsOf d := List.map_append _ _ _

theorem lookup_eq_none_of_not_mem_keys {c : List ((ℕ × ℕ) × ℕ)} {k : ℕ × ℕ}
    (h : k ∉ keysOf c) : c.lookup k = none := by
  rw [List.lookup_eq_none_iff]
  intro p hp
  have hm : p.1 ∈ keysOf c := List.mem_map_of_mem _ hp
  exact bne_iff_ne.mpr fun e => h (e ▸ hm)

theorem mem_keys_of_lookup_some {c : List ((ℕ × ℕ) × ℕ)} {k : ℕ × ℕ} {v : ℕ}
    (h : c.lookup k = some v) : (k, v) ∈ c := by
  rw [List.lookup_eq_some_iff] at h
  obtain ⟨l₁, l₂, rfl, -⟩ := h
  simp

theorem mem_keys_of_lookup_isSome {c : List ((ℕ × ℕ) × ℕ)} {k : ℕ × ℕ}
    (h : (c.lookup k).isSome) : k ∈ keysOf c := by
  rw [List.lookup_isSome_iff] at h
  obtain ⟨p, hp, he⟩ := h
  have : k = p.1 := by simpa using he
  exact this ▸ List.mem_map_of_mem _ hp

/-- Lookup of a present key is unaffected by appending entries. -/
theorem lookup_append_of_some {c d : List ((ℕ × ℕ) × ℕ)} {k : ℕ × ℕ} {v : ℕ}
    (h : c.lookup k = some v) : (c ++ d).lookup k = some v := by
  rw [List.lookup_append, h]
  rfl

theorem flatOf_cons (t : ℕ × ℕ × ℕ) (fs : List (ℕ × ℕ × ℕ)) :
    flatOf (t :: fs) = t.1 :: t.2.1 :: t.2.2 :: flatOf fs := by
  simp [flatOf]

theorem flatOf_append (fs gs : List (ℕ × ℕ × ℕ)) :
    flatOf (fs ++ gs) = flatOf fs ++ flatOf gs := List.flatMap_append ..

theorem length_flatOf (fs : List (ℕ × ℕ × ℕ)) : (flatOf fs).length = 3 * fs.length := by
  induction fs with
  | nil => rfl
  | cons t ts ih => rw [flatOf_cons]; simp only [List.length_cons, ih]; omega

theorem facesOf_flatOf (fs : List (ℕ × ℕ × ℕ)) : facesOf (flatOf fs) = fs := by
  induction fs with
  | nil => rfl
  | cons t ts ih => rw [flatOf_cons]; simpa [facesOf] using ih

theorem flatOf_facesOf : ∀ (k : ℕ) (l : List ℕ), l.length = 3 * k → flatOf (facesOf l) = l
  | 0, [], _ => rfl
  | k + 1, a :: b :: c :: rest, h => by
    rw [show facesOf (a :: b :: c :: rest) = (a, b, c) :: facesOf rest from rfl, flatOf_cons]
    have : rest.length = 3 * k := by simp at h; omega
    simp [flatOf_facesOf k rest this]
  | 0, a :: l, h => by simp at h
  | k + 1, [], h => by simp at h
  | k + 1, [a], h => by simp at h; omega
  | k + 1, [a, b], h => by simp at h; omega

theorem length_facesOf : ∀ (k : ℕ) (l : List ℕ), l.length = 3 * k → (facesOf l).length = k
  | 0, [], _ => rfl
  | k + 1, a :: b :: c :: rest, h => by
    have : rest.length = 3 * k := by simp at h; omega
    simpa [facesOf] using length_facesOf k rest this
  | 0, a :: l, h => by simp at h
  | k + 1, [], h => by simp at h
  | k + 1, [a], h => by simp at h; omega
  | k + 1, [a, b], h => by simp at h; omega

theorem getD_append_left {α : Type} {l₁ l₂ : List α} {n : ℕ} (h : n < l₁.length) (d : α) :
    (l₁ ++ l₂).getD n d = l₁.getD n d := by
  simp [List.getD_eq_getElem?_getD, List.getElem?_append_left h]

theorem getD_append_right {α : Type} {l₁ l₂ : List α} {n : ℕ} (h : l₁.length ≤ n) (d : α) :
    (l₁ ++ l₂).getD n d = l₂.getD (n - l₁.length) d := by
  simp [List.getD_eq_getElem?_getD, List.getElem?_append_right h]

theorem flatOf_getD (fs : List (ℕ × ℕ × ℕ)) (f : ℕ) (hf : f < fs.length) :
    (flatOf fs).getD (3 * f) 0 = (fs.getD f (0, 0, 0)).1 ∧
      (flatOf fs).getD (3 * f + 1) 0 = (fs.getD f (0, 0, 0)).2.1 ∧
        (flatOf fs).getD (3 * f + 2) 0 = (fs.getD f (0, 0, 0)).2.2 := by
  induction fs generalizing f with
  | nil => simp at hf
  | cons t ts ih =>
    rw [flatOf_cons]
    cases f with
    | zero => simp
    | succ f =>
      have hf' : f < ts.length := by simpa using hf
      have e : 3 * (f + 1) = 3 * f + 3 := by ring
      simpa [e, Nat.add_right_comm] using ih f hf'

/-- Effect of processing one face whose slot starts right after D: the three
slots are read, the midpoints requested, slots 2 and 3 rewritten, and the
nine indices of the three child faces pushed. -/
theorem processFace_step {V : Type} [Inhabited V] (mid : V → V → V) (c : MidCache V)
    (D R : List ℕ) (t : ℕ × ℕ × ℕ) (k : ℕ) (hD : D.length = 3 * k) :
    processFace mid ⟨c, D ++ t.1 :: t.2.1 :: t.2.2 :: R⟩ k =
      ⟨(faceMids mid c t).1,
        D ++ t.1 :: (faceMids mid c t).2.1 :: (faceMids mid c t).2.2.2 ::
          (R ++ flatOf (apFaces (faceMids mid c t).2 t))⟩ := by
  have hle0 : D.length ≤ k * 3 := by omega
  have hle1 : D.length ≤ k * 3 + 1 := by omega
  have hle2 : D.length ≤ k * 3 + 2 := by omega
  have hi0 : k * 3 - D.length = 0 := by omega
  have hi1 : k * 3 + 1 - D.length = 1 := by omega
  have hi2 : k * 3 + 2 - D.length = 2 := by omega
  have hp0 : (D ++ t.1 :: t.2.1 :: t.2.2 :: R).getD (k * 3) 0 = t.1 := by
    rw [getD_append_right hle0, hi0]; rfl
  have hp1 : (D ++ t.1 :: t.2.1 :: t.2.2 :: R).getD (k * 3 + 1) 0 = t.2.1 := by
    rw [getD_append_right hle1, hi1]; rfl
  have hp2 : (D ++ t.1 :: t.2.1 :: t.2.2 :: R).getD (k * 3 + 2) 0 = t.2.2 := by
    rw [getD_append_right hle2, hi2]; rfl
  simp only [processFace, hp0, hp1, hp2, faceMids]
  congr 1
  rw [List.set_append_right _ _ hle1, hi1, List.set_append_right _ _ hle2, hi2]
  simp [flatOf, apFaces, List.set]

/-- The per-level loop, started anywhere in the face sequence: processing
the remaining faces rewrites them in place and appends their child blocks
after everything already present. -/
theorem foldl_processFace_eq {V : Type} [Inhabited V] (mid : V → V → V) :
    ∀ (fs done ap : List (ℕ × ℕ × ℕ)) (c : MidCache V),
      (List.range' done.length fs.length).foldl (processFace mid)
          ⟨c, flatOf done ++ flatOf fs ++ flatOf ap⟩ =
        ⟨(levelFaces mid c fs).1,
          flatOf done ++ flatOf (levelFaces mid c fs).2.1 ++ flatOf ap ++
            flatOf (levelFaces mid c fs).2.2⟩
  | [], done, ap, c => by simp [levelFaces, flatOf]
  | t :: ts, done, ap, c => by
    rw [List.length_cons, List.range'_succ, List.foldl_cons]
    have hstep := processFace_step mid c (flatOf done)
      (flatOf ts ++ flatOf ap) t done.length (length_flatOf done)
    have hrw : flatOf done ++ flatOf (t :: ts) ++ flatOf ap =
        flatOf done ++ t.1 :: t.2.1 :: t.2.2 :: (flatOf ts ++ flatOf ap) := by
      rw [flatOf_cons]; simp
    rw [hrw, hstep]
    have hdone' : flatOf done ++ t.1 :: (faceMids mid c t).2.1 ::
        (faceMids mid c t).2.2.2 :: (flatOf ts ++ flatOf ap ++
          flatOf (apFaces (faceMids mid c t).2 t)) =
        flatOf (done ++ [rwFace (faceMids mid c t).2 t]) ++ flatOf ts ++
          flatOf (ap ++ apFaces (faceMids mid c t).2 t) := by
      rw [flatOf_append, flatOf_append, flatOf_cons]
      simp [flatOf, rwFace]
    have hlen' : (done ++ [rwFace (faceMids mid c t).2 t]).length = done.length + 1 := by
      simp
    have hIH := foldl_processFace_eq mid ts (done ++ [rwFace (faceMids mid c t).2 t])
      (ap ++ apFaces (faceMids mid c t).2 t) (faceMids mid c t).1
    rw [hlen'] at hIH
    have hassoc : flatOf done ++ t.1 :: (faceMids mid c t).2.1 ::
        (faceMids mid c t).2.2.2 :: (flatOf ts ++ flatOf ap ++
          flatOf (apFaces (faceMids mid c t).2 t)) =
        flatOf (done ++ [rwFace (faceMids mid c t).2 t]) ++ flatOf ts ++
          flatOf (ap ++ apFaces (faceMids mid c t).2 t) := hdone'
    calc (List.range' (done.length + 1) ts.length).foldl (processFace mid)
          ⟨(faceMids mid c t).1,
            flatOf done ++ t.1 :: (faceMids mid c t).2.1 :: (faceMids mid c t).2.2.2 ::
              (flatOf ts ++ flatOf ap ++ flatOf (apFaces (faceMids mid c t).2 t))⟩
        = (List.range' (done.length + 1) ts.length).foldl (processFace mid)
            ⟨(faceMids mid c t).1,
              flatOf (done ++ [rwFace (faceMids mid c t).2 t]) ++ flatOf ts ++
                flatOf (ap ++ apFaces (faceMids mid c t).2 t)⟩ := by rw [hassoc]
      _ = ⟨(levelFaces mid (faceMids mid c t).1 ts).1,
            flatOf (done ++ [rwFace (faceMids mid c t).2 t]) ++
              flatOf (levelFaces mid (faceMids mid c t).1 ts).2.1 ++
                flatOf (ap ++ apFaces (faceMids mid c t).2 t) ++
                  flatOf (levelFaces mid (faceMids mid c t).1 ts).2.2⟩ := hIH
      _ = ⟨(levelFaces mid c (t :: ts)).1,
            flatOf done ++ flatOf (levelFaces mid c (t :: ts)).2.1 ++ flatOf ap ++
              flatOf (levelFaces mid c (t :: ts)).2.2⟩ := by
          show _ = (⟨(levelFaces mid c (t :: ts)).1, _⟩ : MeshState V)
          simp only [levelFaces]
          congr 1
          rw [flatOf_append, flatOf_append, flatOf_cons, flatOf_append]
          simp [flatOf, rwFace]

/-- Identification of one subdivision level with its face-level description:
the rewritten faces stay in their slots, all appended child faces follow,
and the closure state evolves by the per-face midpoint requests. -/
theorem levelStep_eq {V : Type} [Inhabited V] (mid : V → V → V) (s : MeshState V)
    (nf : ℕ) (h : s.indices.length = 3 * nf) :
    levelStep mid s nf =
      ⟨(levelFaces mid s.mc (facesOf s.indices)).1,
        flatOf (levelFaces mid s.mc (facesOf s.indices)).2.1 ++
          flatOf (levelFaces mid s.mc (facesOf s.indices)).2.2⟩ := by
  have hflat : flatOf (facesOf s.indices) = s.indices := flatOf_facesOf nf _ h
  have hlen : (facesOf s.indices).length = nf := length_facesOf nf _ h
  unfold levelStep
  rw [List.range_eq_range']
  have hmain := foldl_processFace_eq mid (facesOf s.indices) [] [] s.mc
  simp only [List.length_nil, flatOf, List.flatMap_nil, List.nil_append,
    List.append_nil] at hmain
  rw [← flatOf, ← flatOf, hflat, hlen] at hmain
  exact hmain

theorem canon_comm (a b : ℕ) : canon a b = canon b a := by
  unfold canon
  split_ifs with h1 h2 h2
  · omega
  · rfl
  · rfl
  · have : a = b := by omega
    subst this
    rfl

theorem canon_fst_lt_snd {a b : ℕ} (h : a ≠ b) : (canon a b).1 < (canon a b).2 := by
  unfold canon
  split_ifs with h1 <;> simp <;> omega

theorem canon_mem_pair (a b : ℕ) : (canon a b).1 = a ∧ (canon a b).2 = b ∨
    (canon a b).1 = b ∧ (canon a b).2 = a := by
  unfold canon
  split_ifs <;> simp

theorem canon_snd_le {a b : ℕ} : (canon a b).2 ≤ max a b := by
  unfold canon
  split_ifs <;> simp <;> omega

theorem canon_idem {a b : ℕ} : canon (canon a b).1 (canon a b).2 = canon a b := by
  unfold canon
  split_ifs with h1 h2 h2 <;> simp_all <;> omega

theorem mem_keys_lookup_isSome {c : List ((ℕ × ℕ) × ℕ)} {k : ℕ × ℕ}
    (h : k ∈ keysOf c) : (c.lookup k).isSome := by
  rw [List.lookup_isSome_iff]
  obtain ⟨p, hp, he⟩ := List.mem_map.mp h
  exact ⟨p, hp, by simp [he]⟩

theorem lookup_none_not_mem_keys {c : List ((ℕ × ℕ) × ℕ)} {k : ℕ × ℕ}
    (h : c.lookup k = none) : k ∉ keysOf c := fun hm => by
  have := mem_keys_lookup_isSome hm
  rw [h] at this
  exact Bool.noConfusion this

/-- With pairwise distinct values, an entry is determined by its value. -/
theorem key_eq_of_val_eq {c : List ((ℕ × ℕ) × ℕ)} (h : (valsOf c).Nodup)
    {e f : ℕ × ℕ} {v : ℕ} (he : (e, v) ∈ c) (hf : (f, v) ∈ c) : e = f := by
  induction c with
  | nil => simp at he
  | cons kv rest ih =>
    have hv : (valsOf (kv :: rest)).Nodup := h
    rw [show valsOf (kv :: rest) = kv.2 :: valsOf rest from rfl, List.nodup_cons] at hv
    rcases List.mem_cons.mp he with he1 | he1 <;> rcases List.mem_cons.mp hf with hf1 | hf1
    · rw [← he1] at hf1
      cases he1
      cases hf1
      rfl
    · exfalso
      apply hv.1
      have : v = kv.2 := by rw [← he1]
      exact this ▸ List.mem_map_of_mem Prod.snd hf1
    · exfalso
      apply hv.1
      have : v = kv.2 := by rw [← hf1]
      exact this ▸ List.mem_map_of_mem Prod.snd he1
    · exact ih hv.2 he1 hf1

/-- Effect of one get_middle_point call under the level invariant: the cache
is extended by at most one entry, whose key is the canonical pair and whose
value is the next fresh vertex index; afterwards the canonical pair is
cached, and its cached value is the returned index. -/
theorem gmp_call {V : Type} [Inhabited V] (mid : V → V → V) (c : MidCache V)
    (K0 K1 : List ((ℕ × ℕ) × ℕ)) (n₀ a b : ℕ)
    (hc : c.cache = K0 ++ K1)
    (hK0 : canon a b ∉ keysOf K0)
    (hkeys : (keysOf (K0 ++ K1)).Nodup)
    (hvals : valsOf K1 = List.range' n₀ K1.length)
    (hlen : c.verts.length = n₀ + K1.length) :
    ∃ Δ : List ((ℕ × ℕ) × ℕ),
      (Δ = [] ∨ Δ = [(canon a b, n₀ + K1.length)]) ∧
        (get_middle_point mid c a b).1.cache = K0 ++ (K1 ++ Δ) ∧
          (keysOf (K0 ++ (K1 ++ Δ))).Nodup ∧
            valsOf (K1 ++ Δ) = List.range' n₀ (K1 ++ Δ).length ∧
              (get_middle_point mid c a b).1.verts.length = n₀ + (K1 ++ Δ).length ∧
                (∃ w, (get_middle_point mid c a b).1.verts = c.verts ++ w) ∧
                  canon a b ∈ keysOf (K1 ++ Δ) ∧
                    (get_middle_point mid c a b).1.cache.lookup (canon a b) =
                        some (get_middle_point mid c a b).2 ∧
                      ∀ kv ∈ Δ,
                        (get_middle_point mid c a b).1.verts.getD kv.2 default =
                          mid (c.verts.getD kv.1.1 default) (c.verts.getD kv.1.2 default) := by
  cases hlook : c.cache.lookup (canon a b) with
  | some m =>
    have hres : get_middle_point mid c a b = (c, m) := by
      simp only [get_middle_point, hlook]
    refine ⟨[], Or.inl rfl, ?_⟩
    rw [hres]
    have hmemK1 : canon a b ∈ keysOf K1 := by
      rw [hc, List.lookup_append] at hlook
      rw [lookup_eq_none_of_not_mem_keys hK0] at hlook
      have : K1.lookup (canon a b) = some m := by simpa using hlook
      exact mem_keys_of_lookup_isSome (by simp [this])
    simp only [List.append_nil]
    exact ⟨hc, hkeys, hvals, hlen, ⟨[], by simp⟩, hmemK1, hlook, by simp⟩
  | none =>
    have hres : get_middle_point mid c a b =
        (⟨c.verts ++ [mid (c.verts.getD (canon a b).1 default)
            (c.verts.getD (canon a b).2 default)],
          c.cache ++ [(canon a b, c.verts.length)]⟩, c.verts.length) := by
      simp only [get_middle_point, hlook]
    refine ⟨[(canon a b, n₀ + K1.length)], Or.inr rfl, ?_⟩
    rw [hres]
    have hnotmem : canon a b ∉ keysOf (K0 ++ K1) := lookup_none_not_mem_keys (hc ▸ hlook)
    constructor
    · simp [hc, hlen, List.append_assoc]
    constructor
    · rw [← List.append_assoc]
      rw [show keysOf ((K0 ++ K1) ++ [(canon a b, n₀ + K1.length)]) =
            keysOf (K0 ++ K1) ++ [canon a b] from List.map_append _ _ _]
      simp [List.nodup_append, hkeys, hnotmem]
    constructor
    · rw [valsOf_append, hvals]
      have : List.range' n₀ (K1.length + 1) = List.range' n₀ K1.length ++ [n₀ + K1.length] :=
        List.range'_1_concat n₀ K1.length
      simp [valsOf, this]
    constructor
    · simp [hlen]
      omega
    constructor
    · exact ⟨_, rfl⟩
    constructor
    · simp [keysOf]
    constructor
    · show (c.cache ++ [(canon a b, c.verts.length)]).lookup (canon a b) = some c.verts.length
      rw [List.lookup_append, hlook]
      simp [List.lookup_cons_self]
    · intro kv hkv
      have : kv = (canon a b, n₀ + K1.length) := by simpa using hkv
      subst this
      simp only
      rw [← hlen]
      rw [getD_append_right (le_refl _), Nat.sub_self]
      rfl

theorem lookup_of_mem_nodup {c : List ((ℕ × ℕ) × ℕ)} (h : (keysOf c).Nodup)
    {kv : (ℕ × ℕ) × ℕ} (hm : kv ∈ c) : c.lookup kv.1 = some kv.2 := by
  induction c with
  | nil => simp at hm
  | cons hd rest ih =>
    have hkc : (keysOf (hd :: rest)).Nodup := h
    rw [show keysOf (hd :: rest) = hd.1 :: keysOf rest from rfl, List.nodup_cons] at hkc
    rcases List.mem_cons.mp hm with h1 | h1
    · subst h1
      cases kv
      exact List.lookup_cons_self
    · have hne : kv.1 ≠ hd.1 := fun e => hkc.1 (e ▸ List.mem_map_of_mem Prod.fst h1)
      rw [List.lookup_cons]
      have : (kv.1 == hd.1) = false := beq_eq_false_iff_ne.mpr hne
      rw [this]
      exact ih hkc.2 h1

/-- Characterization of one whole subdivision level at the face level, under
the invariant that no current edge is cached yet beyond the K1 block built
during this level.  The cache grows by a block K2 keyed by current edges,
its values are the consecutive fresh vertex indices, every current edge ends
up cached, the vertex list is extended in place, the rewritten and appended
faces are exactly the children under the final edge assignment, and every
new vertex is the mid of the positions of its edge endpoints. -/
theorem levelFaces_spec {V : Type} [Inhabited V] (mid : V → V → V)
    (K0 : List ((ℕ × ℕ) × ℕ)) (n₀ : ℕ) :
    ∀ (fs : List (ℕ × ℕ × ℕ)) (c : MidCache V) (K1 : List ((ℕ × ℕ) × ℕ)),
      c.cache = K0 ++ K1 →
      (∀ e ∈ allEdges fs, e.1 < e.2 ∧ e.2 < n₀) →
      (∀ e ∈ allEdges fs, e ∉ keysOf K0) →
      (keysOf (K0 ++ K1)).Nodup →
      valsOf K1 = List.range' n₀ K1.length →
      c.verts.length = n₀ + K1.length →
      ∃ K2 : List ((ℕ × ℕ) × ℕ),
        (levelFaces mid c fs).1.cache = K0 ++ (K1 ++ K2) ∧
          (keysOf (K0 ++ (K1 ++ K2))).Nodup ∧
            (∀ kv ∈ K2, kv.1 ∈ allEdges fs) ∧
              (∀ e ∈ allEdges fs, e ∈ keysOf (K1 ++ K2)) ∧
                valsOf (K1 ++ K2) = List.range' n₀ (K1 ++ K2).length ∧
                  (levelFaces mid c fs).1.verts.length = n₀ + (K1 ++ K2).length ∧
                    (∃ w, (levelFaces mid c fs).1.verts = c.verts ++ w) ∧
                      (levelFaces mid c fs).2.1 = fs.map
                          (fun u => rwFace (midOf (lookupIdx (levelFaces mid c fs).1.cache) u) u) ∧
                        (levelFaces mid c fs).2.2 = fs.flatMap
                            (fun u => apFaces (midOf (lookupIdx (levelFaces mid c fs).1.cache) u) u) ∧
                          ∀ kv ∈ K2,
                            (levelFaces mid c fs).1.verts.getD kv.2 default =
                              mid ((levelFaces mid c fs).1.verts.getD kv.1.1 default)
                                ((levelFaces mid c fs).1.verts.getD kv.1.2 default) := by
  intro fs
  induction fs with
  | nil =>
    intro c K1 hc hedge hK0 hkeys hvals hlen
    refine ⟨[], ?_, ?_, ?_, ?_, ?_, ?_, ?_, ?_, ?_, ?_⟩
    · simpa [levelFaces] using hc
    · simpa using hkeys
    · simp
    · simp [allEdges]
    · simpa using hvals
    · simpa [levelFaces] using hlen
    · exact ⟨[], by simp [levelFaces]⟩
    · simp [levelFaces]
    · simp [levelFaces]
    · simp
  | cons t ts ih =>
    intro c K1 hc hedge hK0 hkeys hvals hlen
    have hsplit : allEdges (t :: ts) = edgesOf t ++ allEdges ts := by
      simp [allEdges]
    have he1 : canon t.1 t.2.1 ∈ allEdges (t :: ts) := by
      rw [hsplit]; exact List.mem_append_left _ (by simp [edgesOf])
    have he2 : canon t.2.1 t.2.2 ∈ allEdges (t :: ts) := by
      rw [hsplit]; exact List.mem_append_left _ (by simp [edgesOf])
    have he3 : canon t.2.2 t.1 ∈ allEdges (t :: ts) := by
      rw [hsplit]; exact List.mem_append_left _ (by simp [edgesOf])
    obtain ⟨Δ1, hΔ1or, hc1, hkeys1, hvals1, hlen1, hw1, hmem1, hlook1, hpos1⟩ :=
      gmp_call mid c K0 K1 n₀ t.1 t.2.1 hc (hK0 _ he1) hkeys hvals hlen
    set r3 := get_middle_point mid c t.1 t.2.1 with hr3
    set c1 := r3.1 with hc1d
    obtain ⟨Δ2, hΔ2or, hc2, hkeys2, hvals2, hlen2, hw2, hmem2, hlook2, hpos2⟩ :=
      gmp_call mid c1 K0 (K1 ++ Δ1) n₀ t.2.1 t.2.2 hc1 (hK0 _ he2) hkeys1 hvals1 hlen1
    set r4 := get_middle_point mid c1 t.2.1 t.2.2 with hr4
    set c2 := r4.1 with hc2d
    obtain ⟨Δ3, hΔ3or, hc3, hkeys3, hvals3, hlen3, hw3, hmem3, hlook3, hpos3⟩ :=
      gmp_call mid c2 K0 ((K1 ++ Δ1) ++ Δ2) n₀ t.2.2 t.1 hc2 (hK0 _ he3) hkeys2 hvals2 hlen2
    set r5 := get_middle_point mid c2 t.2.2 t.1 with hr5
    set c3 := r5.1 with hc3d
    have hedge' : ∀ e ∈ allEdges ts, e.1 < e.2 ∧ e.2 < n₀ := fun e he =>
      hedge e (by rw [hsplit]; exact List.mem_append_right _ he)
    have hK0' : ∀ e ∈ allEdges ts, e ∉ keysOf K0 := fun e he =>
      hK0 e (by rw [hsplit]; exact List.mem_append_right _ he)
    obtain ⟨K2', hcF, hkeysF, hK2key, hallmem, hvalsF, hlenF, hwF, hrwF, hapF, hposF⟩ :=
      ih c3 (((K1 ++ Δ1) ++ Δ2) ++ Δ3) hc3 hedge' hK0' hkeys3 hvals3 hlen3
    have hfm : faceMids mid c t = (c3, (r3.2, r4.2, r5.2)) := by
      simp only [faceMids]
    have hlevel : levelFaces mid c (t :: ts) =
        ((levelFaces mid c3 ts).1,
          rwFace (r3.2, r4.2, r5.2) t :: (levelFaces mid c3 ts).2.1,
          apFaces (r3.2, r4.2, r5.2) t ++ (levelFaces mid c3 ts).2.2) := by
      show (levelFaces mid c (t :: ts)) = _
      simp only [levelFaces, hfm]
    refine ⟨Δ1 ++ (Δ2 ++ (Δ3 ++ K2')), ?_, ?_, ?_, ?_, ?_, ?_, ?_, ?_, ?_, ?_⟩
    · rw [hlevel]
      simp only
      rw [hcF]
      simp [List.append_assoc]
    · have := hkeysF
      rw [show K0 ++ (((K1 ++ Δ1) ++ Δ2) ++ Δ3 ++ K2') =
            K0 ++ (K1 ++ (Δ1 ++ (Δ2 ++ (Δ3 ++ K2')))) by simp [List.append_assoc]] at this
      exact this
    · intro kv hkv
      rcases List.mem_append.mp hkv with h1 | hrest
      · rcases hΔ1or with he | he
        · rw [he] at h1; simp at h1
        · rw [he] at h1
          have : kv = (canon t.1 t.2.1, n₀ + K1.length) := by simpa using h1
          rw [this]
          exact he1
      rcases List.mem_append.mp hrest with h2 | hrest2
      · rcases hΔ2or with he | he
        · rw [he] at h2; simp at h2
        · rw [he] at h2
          have : kv = (canon t.2.1 t.2.2, n₀ + (K1 ++ Δ1).length) := by simpa using h2
          rw [this]
          exact he2
      rcases List.mem_append.mp hrest2 with h3 | h4
      · rcases hΔ3or with he | he
        · rw [he] at h3; simp at h3
        · rw [he] at h3
          have : kv = (canon t.2.2 t.1, n₀ + ((K1 ++ Δ1) ++ Δ2).length) := by simpa using h3
          rw [this]
          exact he3
      · have := hK2key kv h4
        rw [hsplit]
        exact List.mem_append_right _ this
    · intro e he
      rw [hsplit] at he
      have hkeyscover : keysOf (K1 ++ (Δ1 ++ (Δ2 ++ (Δ3 ++ K2')))) =
          keysOf ((((K1 ++ Δ1) ++ Δ2) ++ Δ3) ++ K2') := by
        simp [List.append_assoc]
      rcases List.mem_append.mp he with ht | hts
      · have ht' : e = canon t.1 t.2.1 ∨ e = canon t.2.1 t.2.2 ∨ e = canon t.2.2 t.1 := by
          simpa [edgesOf] using ht
        rw [hkeyscover]
        rcases ht' with rfl | rfl | rfl
        · rw [keysOf_append, keysOf_append, keysOf_append]
          exact List.mem_append_left _ (List.mem_append_left _
            (List.mem_append_left _ hmem1))
        · rw [keysOf_append, keysOf_append]
          exact List.mem_append_left _ (List.mem_append_left _ hmem2)
        · rw [keysOf_append]
          exact List.mem_append_left _ hmem3
      · rw [hkeyscover]
        exact hallmem e hts
    · have := hvalsF
      rw [show (((K1 ++ Δ1) ++ Δ2) ++ Δ3) ++ K2' =
            K1 ++ (Δ1 ++ (Δ2 ++ (Δ3 ++ K2'))) by simp [List.append_assoc]] at this
      exact this
    · rw [hlevel]
      simp only
      rw [hlenF]
      congr 1
      simp [List.append_assoc]
    · rw [hlevel]
      simp only
      obtain ⟨wa, hwa⟩ := hw1
      obtain ⟨wb, hwb⟩ := hw2
      obtain ⟨wc, hwc⟩ := hw3
      obtain ⟨wd, hwd⟩ := hwF
      exact ⟨wa ++ (wb ++ (wc ++ wd)), by
        rw [hwd, hwc, hwb, hwa]; simp [List.append_assoc]⟩
    · rw [hlevel]
      simp only [List.map_cons]
      have hFc1 : (levelFaces mid c3 ts).1.cache = c1.cache ++ (Δ2 ++ (Δ3 ++ K2')) := by
        rw [hcF, hc1]
        simp [List.append_assoc]
      have hFc2 : (levelFaces mid c3 ts).1.cache = c2.cache ++ (Δ3 ++ K2') := by
        rw [hcF, hc2]
        simp [List.append_assoc]
      have hFc3 : (levelFaces mid c3 ts).1.cache = c3.cache ++ K2' := by
        rw [hcF, hc3]
        simp [List.append_assoc]
      have hm1 : lookupIdx (levelFaces mid c3 ts).1.cache (canon t.1 t.2.1) = r3.2 := by
        rw [lookupIdx, hFc1, lookup_append_of_some hlook1]
        rfl
      have hm2 : lookupIdx (levelFaces mid c3 ts).1.cache (canon t.2.1 t.2.2) = r4.2 := by
        rw [lookupIdx, hFc2, lookup_append_of_some hlook2]
        rfl
      have hm3 : lookupIdx (levelFaces mid c3 ts).1.cache (canon t.2.2 t.1) = r5.2 := by
        rw [lookupIdx, hFc3, lookup_append_of_some hlook3]
        rfl
      have hmid : midOf (lookupIdx (levelFaces mid c3 ts).1.cache) t = (r3.2, r4.2, r5.2) := by
        rw [midOf, hm1, hm2, hm3]
      rw [hmid, hrwF]
    · rw [hlevel]
      simp only [List.flatMap_cons]
      have hFc1 : (levelFaces mid c3 ts).1.cache = c1.cache ++ (Δ2 ++ (Δ3 ++ K2')) := by
        rw [hcF, hc1]
        simp [List.append_assoc]
      have hFc2 : (levelFaces mid c3 ts).1.cache = c2.cache ++ (Δ3 ++ K2') := by
        rw [hcF, hc2]
        simp [List.append_assoc]
      have hFc3 : (levelFaces mid c3 ts).1.cache = c3.cache ++ K2' := by
        rw [hcF, hc3]
        simp [List.append_assoc]
      have hm1 : lookupIdx (levelFaces mid c3 ts).1.cache (canon t.1 t.2.1) = r3.2 := by
        rw [lookupIdx, hFc1, lookup_append_of_some hlook1]
        rfl
      have hm2 : lookupIdx (levelFaces mid c3 ts).1.cache (canon t.2.1 t.2.2) = r4.2 := by
        rw [lookupIdx, hFc2, lookup_append_of_some hlook2]
        rfl
      have hm3 : lookupIdx (levelFaces mid c3 ts).1.cache (canon t.2.2 t.1) = r5.2 := by
        rw [lookupIdx, hFc3, lookup_append_of_some hlook3]
        rfl
      have hmid : midOf (lookupIdx (levelFaces mid c3 ts).1.cache) t = (r3.2, r4.2, r5.2) := by
        rw [midOf, hm1, hm2, hm3]
      rw [hmid, hapF]
    · intro kv hkv
      rw [hlevel]
      simp only
      obtain ⟨wd, hwd⟩ := hwF
      have hverts3 : (levelFaces mid c3 ts).1.verts = c3.verts ++ wd := hwd
      have hb1 : ∀ e ∈ allEdges (t :: ts), e.1 < n₀ ∧ e.2 < n₀ := by
        intro e he
        have := hedge e he
        omega
      rcases List.mem_append.mp hkv with h1 | hrest
      · rcases hΔ1or with he | he
        · rw [he] at h1; simp at h1
        · rw [he] at h1
          have hkveq : kv = (canon t.1 t.2.1, n₀ + K1.length) := by simpa using h1
          subst hkveq
          obtain ⟨wb, hwb⟩ := hw2
          obtain ⟨wc, hwc⟩ := hw3
          have hpos := hpos1 (canon t.1 t.2.1, n₀ + K1.length) (by rw [he]; simp)
          obtain ⟨ha, hb⟩ := hb1 _ he1
          have hchain : (levelFaces mid c3 ts).1.verts = c1.verts ++ (wb ++ (wc ++ wd)) := by
            rw [hverts3, hwc, hwb]
            simp [List.append_assoc]
          have hv2 : n₀ + K1.length < c1.verts.length := by
            rw [hlen1, he]
            simp
          have hargs1 : c.verts.getD (canon t.1 t.2.1).1 default =
              (levelFaces mid c3 ts).1.verts.getD (canon t.1 t.2.1).1 default := by
            obtain ⟨wa, hwa⟩ := hw1
            rw [hchain, hwa]
            rw [getD_append_left (by simp; omega), getD_append_left (by omega)]
          have hargs2 : c.verts.getD (canon t.1 t.2.1).2 default =
              (levelFaces mid c3 ts).1.verts.getD (canon t.1 t.2.1).2 default := by
            obtain ⟨wa, hwa⟩ := hw1
            rw [hchain, hwa]
            rw [getD_append_left (by simp; omega), getD_append_left (by omega)]
          have hL : (levelFaces mid c3 ts).1.verts.getD (n₀ + K1.length) default =
              mid (c.verts.getD (canon t.1 t.2.1).1 default)
                (c.verts.getD (canon t.1 t.2.1).2 default) := by
            rw [hchain, getD_append_left hv2]
            exact hpos
          show (levelFaces mid c3 ts).1.verts.getD (n₀ + K1.length) default =
              mid ((levelFaces mid c3 ts).1.verts.getD (canon t.1 t.2.1).1 default)
                ((levelFaces mid c3 ts).1.verts.getD (canon t.1 t.2.1).2 default)
          rw [hL, hargs1, hargs2]
      rcases List.mem_append.mp hrest with h2 | hrest2
      · rcases hΔ2or with he | he
        · rw [he] at h2; simp at h2
        · rw [he] at h2
          have hkveq : kv = (canon t.2.1 t.2.2, n₀ + (K1 ++ Δ1).length) := by simpa using h2
          subst hkveq
          obtain ⟨wc, hwc⟩ := hw3
          have hpos := hpos2 (canon t.2.1 t.2.2, n₀ + (K1 ++ Δ1).length) (by rw [he]; simp)
          obtain ⟨ha, hb⟩ := hb1 _ he2
          have hchain : (levelFaces mid c3 ts).1.verts = c2.verts ++ (wc ++ wd) := by
            rw [hverts3, hwc]
            simp [List.append_assoc]
          have hv2 : n₀ + (K1 ++ Δ1).length < c2.verts.length := by
            rw [hlen2, he]
            simp
          have hc1len : n₀ ≤ c1.verts.length := by omega
          have hargs1 : c1.verts.getD (canon t.2.1 t.2.2).1 default =
              (levelFaces mid c3 ts).1.verts.getD (canon t.2.1 t.2.2).1 default := by
            obtain ⟨wb, hwb⟩ := hw2
            rw [hchain, hwb]
            rw [getD_append_left (by simp; omega), getD_append_left (by omega)]
          have hargs2 : c1.verts.getD (canon t.2.1 t.2.2).2 default =
              (levelFaces mid c3 ts).1.verts.getD (canon t.2.1 t.2.2).2 default := by
            obtain ⟨wb, hwb⟩ := hw2
            rw [hchain, hwb]
            rw [getD_append_left (by simp; omega), getD_append_left (by omega)]
          have hL : (levelFaces mid c3 ts).1.verts.getD (n₀ + (K1 ++ Δ1).length) default =
              mid (c1.verts.getD (canon t.2.1 t.2.2).1 default)
                (c1.verts.getD (canon t.2.1 t.2.2).2 default) := by
            rw [hchain, getD_append_left hv2]
            exact hpos
          show (levelFaces mid c3 ts).1.verts.getD (n₀ + (K1 ++ Δ1).length) default =
              mid ((levelFaces mid c3 ts).1.verts.getD (canon t.2.1 t.2.2).1 default)
                ((levelFaces mid c3 ts).1.verts.getD (canon t.2.1 t.2.2).2 default)
          rw [hL, hargs1, hargs2]
      rcases List.mem_append.mp hrest2 with h3 | h4
      · rcases hΔ3or with he | he
        · rw [he] at h3; simp at h3
        · rw [he] at h3
          have hkveq : kv = (canon t.2.2 t.1, n₀ + ((K1 ++ Δ1) ++ Δ2).length) := by simpa using h3
          subst hkveq
          have hpos := hpos3 (canon t.2.2 t.1, n₀ + ((K1 ++ Δ1) ++ Δ2).length) (by rw [he]; simp)
          obtain ⟨ha, hb⟩ := hb1 _ he3
          have hchain : (levelFaces mid c3 ts).1.verts = c3.verts ++ wd := hverts3
          have hv2 : n₀ + ((K1 ++ Δ1) ++ Δ2).length < c3.verts.length := by
            rw [hlen3, he]
            simp
          have hargs1 : c2.verts.getD (canon t.2.2 t.1).1 default =
              (levelFaces mid c3 ts).1.verts.getD (canon t.2.2 t.1).1 default := by
            obtain ⟨wc, hwc⟩ := hw3
            rw [hchain, hwc]
            rw [getD_append_left (by simp; omega), getD_append_left (by omega)]
          have hargs2 : c2.verts.getD (canon t.2.2 t.1).2 default =
              (levelFaces mid c3 ts).1.verts.getD (canon t.2.2 t.1).2 default := by
            obtain ⟨wc, hwc⟩ := hw3
            rw [hchain, hwc]
            rw [getD_append_left (by simp; omega), getD_append_left (by omega)]
          have hL : (levelFaces mid c3 ts).1.verts.getD (n₀ + ((K1 ++ Δ1) ++ Δ2).length) default =
              mid (c2.verts.getD (canon t.2.2 t.1).1 default)
                (c2.verts.getD (canon t.2.2 t.1).2 default) := by
            rw [hchain, getD_append_left hv2]
            exact hpos
          show (levelFaces mid c3 ts).1.verts.getD (n₀ + ((K1 ++ Δ1) ++ Δ2).length) default =
              mid ((levelFaces mid c3 ts).1.verts.getD (canon t.2.2 t.1).1 default)
                ((levelFaces mid c3 ts).1.verts.getD (canon t.2.2 t.1).2 default)
          rw [hL, hargs1, hargs2]
      · exact hposF kv h4

theorem canon_eq_iff {a b c d : ℕ} :
    canon a b = canon c d ↔ (a = c ∧ b = d) ∨ (a = d ∧ b = c) := by
  unfold canon
  split_ifs <;> simp [Prod.ext_iff] <;> omega

theorem canon_fst_mem {a b : ℕ} : (canon a b).1 = a ∨ (canon a b).1 = b := by
  unfold canon
  split_ifs <;> simp

theorem canon_pair_set (a b : ℕ) :
    ({(canon a b).1, (canon a b).2} : Finset ℕ) = {a, b} := by
  unfold canon
  split_ifs <;> simp [Finset.pair_comm]

/-- Shorthand for the corner conditions of goodFaces on one face. -/
theorem dir_mem_ne {t : ℕ × ℕ × ℕ} (h : t.1 ≠ t.2.1 ∧ t.2.1 ≠ t.2.2 ∧ t.2.2 ≠ t.1)
    {d : ℕ × ℕ} (hd : d ∈ dirEdges t) : d.1 ≠ d.2 := by
  rcases h with ⟨h1, h2, h3⟩
  rcases (by simpa [dirEdges] using hd : d = (t.1, t.2.1) ∨ d = (t.2.1, t.2.2) ∨
      d = (t.2.2, t.1)) with rfl | rfl | rfl <;> simp_all

theorem dir_mem_lt {n : ℕ} {t : ℕ × ℕ × ℕ} (h : t.1 < n ∧ t.2.1 < n ∧ t.2.2 < n)
    {d : ℕ × ℕ} (hd : d ∈ dirEdges t) : d.1 < n ∧ d.2 < n := by
  rcases (by simpa [dirEdges] using hd : d = (t.1, t.2.1) ∨ d = (t.2.1, t.2.2) ∨
      d = (t.2.2, t.1)) with rfl | rfl | rfl <;> simp_all

theorem canon_dir_mem_edges {t : ℕ × ℕ × ℕ} {d : ℕ × ℕ} (hd : d ∈ dirEdges t) :
    canon d.1 d.2 ∈ edgesOf t := by
  rcases (by simpa [dirEdges] using hd : d = (t.1, t.2.1) ∨ d = (t.2.1, t.2.2) ∨
      d = (t.2.2, t.1)) with rfl | rfl | rfl <;> simp [edgesOf]

theorem edges_mem_allEdges {fs : List (ℕ × ℕ × ℕ)} {t : ℕ × ℕ × ℕ} (ht : t ∈ fs)
    {e : ℕ × ℕ} (he : e ∈ edgesOf t) : e ∈ allEdges fs :=
  List.mem_flatMap.mpr ⟨t, ht, he⟩

/-- An edge endpoint set of a face, as a finset, is a pair of corners. -/
theorem edge_endpoints_sub {t : ℕ × ℕ × ℕ} {e : ℕ × ℕ} (he : e ∈ edgesOf t) :
    ({e.1, e.2} : Finset ℕ) ⊆ vertexSet t := by
  rcases (by simpa [edgesOf] using he : e = canon t.1 t.2.1 ∨ e = canon t.2.1 t.2.2 ∨
      e = canon t.2.2 t.1) with rfl | rfl | rfl <;>
    rw [canon_pair_set] <;> intro x hx <;> simp [vertexSet] at hx ⊢ <;> tauto

/-- Two distinct edges of a triangle cover all three corners. -/
theorem two_edges_union {t : ℕ × ℕ × ℕ}
    (hne3 : t.1 ≠ t.2.1 ∧ t.2.1 ≠ t.2.2 ∧ t.2.2 ≠ t.1)
    {e1 e2 : ℕ × ℕ} (h1 : e1 ∈ edgesOf t) (h2 : e2 ∈ edgesOf t) (hne : e1 ≠ e2) :
    ({e1.1, e1.2} : Finset ℕ) ∪ {e2.1, e2.2} = vertexSet t := by
  obtain ⟨ha, hb, hc⟩ := hne3
  rcases (by simpa [edgesOf] using h1 : e1 = canon t.1 t.2.1 ∨ e1 = canon t.2.1 t.2.2 ∨
      e1 = canon t.2.2 t.1) with rfl | rfl | rfl <;>
    rcases (by simpa [edgesOf] using h2 : e2 = canon t.1 t.2.1 ∨ e2 = canon t.2.1 t.2.2 ∨
        e2 = canon t.2.2 t.1) with rfl | rfl | rfl <;>
      first
        | exact absurd rfl hne
        | (rw [canon_pair_set, canon_pair_set]
           ext x
           simp only [vertexSet, Finset.mem_union, Finset.mem_insert, Finset.mem_singleton]
           tauto)

/-- Two faces with distinct corners sharing two distinct edges have the same
vertex set. -/
theorem two_edges_span {t u : ℕ × ℕ × ℕ}
    (ht : t.1 ≠ t.2.1 ∧ t.2.1 ≠ t.2.2 ∧ t.2.2 ≠ t.1)
    (hu : u.1 ≠ u.2.1 ∧ u.2.1 ≠ u.2.2 ∧ u.2.2 ≠ u.1)
    {e1 e2 : ℕ × ℕ} (h1t : e1 ∈ edgesOf t) (h2t : e2 ∈ edgesOf t)
    (h1u : e1 ∈ edgesOf u) (h2u : e2 ∈ edgesOf u) (hne : e1 ≠ e2) :
    vertexSet t = vertexSet u := by
  rw [← two_edges_union ht h1t h2t hne, ← two_edges_union hu h1u h2u hne]

/-- Interleaving a map and a flatMap over the same list is a permutation of
the flatMap of the cons. -/
theorem map_append_flatMap_perm {α β : Type} (f : α → β) (g : α → List β) :
    ∀ l : List α, (l.map f ++ l.flatMap g).Perm (l.flatMap fun x => f x :: g x)
  | [] => by simp
  | x :: xs => by
    simp only [List.map_cons, List.flatMap_cons, List.cons_append]
    refine List.Perm.cons _ ?_
    have p1 : ((xs.map f ++ g x) ++ xs.flatMap g).Perm ((g x ++ xs.map f) ++ xs.flatMap g) :=
      List.perm_append_comm.append_right _
    have p2 : (g x ++ (xs.map f ++ xs.flatMap g)).Perm
        (g x ++ xs.flatMap fun y => f y :: g y) :=
      (map_append_flatMap_perm f g xs).append_left _
    rw [← List.append_assoc]
    exact p1.trans (by rw [List.append_assoc]; exact p2)

/-- The face list after one level is a permutation of the per-face child
blocks. -/
theorem childrenOf_perm (μ : ℕ × ℕ → ℕ) (fs : List (ℕ × ℕ × ℕ)) :
    (childrenOf μ fs).Perm (fs.flatMap (childAll μ)) :=
  map_append_flatMap_perm _ _ fs

theorem length_childrenOf (μ : ℕ × ℕ → ℕ) (fs : List (ℕ × ℕ × ℕ)) :
    (childrenOf μ fs).length = 4 * fs.length := by
  unfold childrenOf
  rw [List.length_append, List.length_map]
  have : (fs.flatMap fun t => apFaces (midOf μ t) t).length = 3 * fs.length := by
    induction fs with
    | nil => rfl
    | cons t ts ih =>
      rw [List.flatMap_cons, List.length_append, ih]
      simp [apFaces]
      omega
  omega

theorem childDirEdges_eq (μ : ℕ × ℕ → ℕ) (t : ℕ × ℕ × ℕ) :
    childDirEdges μ t =
      [(t.1, μ (canon t.1 t.2.1)), (μ (canon t.1 t.2.1), μ (canon t.2.2 t.1)),
       (μ (canon t.2.2 t.1), t.1),
       (μ (canon t.1 t.2.1), t.2.1), (t.2.1, μ (canon t.2.1 t.2.2)),
       (μ (canon t.2.1 t.2.2), μ (canon t.1 t.2.1)),
       (μ (canon t.2.2 t.1), μ (canon t.2.1 t.2.2)), (μ (canon t.2.1 t.2.2), t.2.2),
       (t.2.2, μ (canon t.2.2 t.1)),
       (μ (canon t.2.1 t.2.2), μ (canon t.2.2 t.1)), (μ (canon t.2.2 t.1), μ (canon t.1 t.2.1)),
       (μ (canon t.1 t.2.1), μ (canon t.2.1 t.2.2))] := by
  simp [childDirEdges, childAll, rwFace, apFaces, midOf, dirEdges]

theorem edgesOf_pairwise_ne {t : ℕ × ℕ × ℕ}
    (h : t.1 ≠ t.2.1 ∧ t.2.1 ≠ t.2.2 ∧ t.2.2 ≠ t.1) :
    canon t.1 t.2.1 ≠ canon t.2.1 t.2.2 ∧ canon t.2.1 t.2.2 ≠ canon t.2.2 t.1 ∧
      canon t.2.2 t.1 ≠ canon t.1 t.2.1 := by
  obtain ⟨h1, h2, h3⟩ := h
  refine ⟨fun he => ?_, fun he => ?_, fun he => ?_⟩ <;>
    rcases canon_eq_iff.mp he with ⟨e1, e2⟩ | ⟨e1, e2⟩ <;> omega

theorem half1_mem {μ : ℕ × ℕ → ℕ} {t : ℕ × ℕ × ℕ} {d : ℕ × ℕ} (hd : d ∈ dirEdges t) :
    (d.1, μ (canon d.1 d.2)) ∈ childDirEdges μ t := by
  rw [childDirEdges_eq]
  rcases (by simpa [dirEdges] using hd : d = (t.1, t.2.1) ∨ d = (t.2.1, t.2.2) ∨
      d = (t.2.2, t.1)) with rfl | rfl | rfl <;> simp

theorem half2_mem {μ : ℕ × ℕ → ℕ} {t : ℕ × ℕ × ℕ} {d : ℕ × ℕ} (hd : d ∈ dirEdges t) :
    (μ (canon d.1 d.2), d.2) ∈ childDirEdges μ t := by
  rw [childDirEdges_eq]
  rcases (by simpa [dirEdges] using hd : d = (t.1, t.2.1) ∨ d = (t.2.1, t.2.2) ∨
      d = (t.2.2, t.1)) with rfl | rfl | rfl <;> simp

theorem inner_mem {μ : ℕ × ℕ → ℕ} {t : ℕ × ℕ × ℕ} {e1 e2 : ℕ × ℕ}
    (h1 : e1 ∈ edgesOf t) (h2 : e2 ∈ edgesOf t) (hne : e1 ≠ e2) :
    (μ e1, μ e2) ∈ childDirEdges μ t := by
  rw [childDirEdges_eq]
  rcases (by simpa [edgesOf] using h1 : e1 = canon t.1 t.2.1 ∨ e1 = canon t.2.1 t.2.2 ∨
      e1 = canon t.2.2 t.1) with rfl | rfl | rfl <;>
    rcases (by simpa [edgesOf] using h2 : e2 = canon t.1 t.2.1 ∨ e2 = canon t.2.1 t.2.2 ∨
        e2 = canon t.2.2 t.1) with rfl | rfl | rfl <;>
      first
        | exact absurd rfl hne
        | simp

theorem childDirEdges_cases {μ : ℕ × ℕ → ℕ} {t : ℕ × ℕ × ℕ}
    (hne : t.1 ≠ t.2.1 ∧ t.2.1 ≠ t.2.2 ∧ t.2.2 ≠ t.1)
    {d : ℕ × ℕ} (hd : d ∈ childDirEdges μ t) :
    (∃ d' ∈ dirEdges t, d = (d'.1, μ (canon d'.1 d'.2))) ∨
      (∃ d' ∈ dirEdges t, d = (μ (canon d'.1 d'.2), d'.2)) ∨
        ∃ e1 e2, e1 ∈ edgesOf t ∧ e2 ∈ edgesOf t ∧ e1 ≠ e2 ∧ d = (μ e1, μ e2) := by
  obtain ⟨q1, q2, q3⟩ := edgesOf_pairwise_ne hne
  have m1 : (t.1, t.2.1) ∈ dirEdges t := by simp [dirEdges]
  have m2 : (t.2.1, t.2.2) ∈ dirEdges t := by simp [dirEdges]
  have m3 : (t.2.2, t.1) ∈ dirEdges t := by simp [dirEdges]
  have e1m : canon t.1 t.2.1 ∈ edgesOf t := by simp [edgesOf]
  have e2m : canon t.2.1 t.2.2 ∈ edgesOf t := by simp [edgesOf]
  have e3m : canon t.2.2 t.1 ∈ edgesOf t := by simp [edgesOf]
  rw [childDirEdges_eq] at hd
  simp only [List.mem_cons, List.not_mem_nil, or_false] at hd
  rcases hd with rfl | rfl | rfl | rfl | rfl | rfl | rfl | rfl | rfl | rfl | rfl | rfl
  · exact Or.inl ⟨(t.1, t.2.1), m1, rfl⟩
  · exact Or.inr (Or.inr ⟨_, _, e1m, e3m, q3.symm, rfl⟩)
  · exact Or.inr (Or.inl ⟨(t.2.2, t.1), m3, rfl⟩)
  · exact Or.inr (Or.inl ⟨(t.1, t.2.1), m1, rfl⟩)
  · exact Or.inl ⟨(t.2.1, t.2.2), m2, rfl⟩
  · exact Or.inr (Or.inr ⟨_, _, e2m, e1m, q1.symm, rfl⟩)
  · exact Or.inr (Or.inr ⟨_, _, e3m, e2m, q2.symm, rfl⟩)
  · exact Or.inr (Or.inl ⟨(t.2.1, t.2.2), m2, rfl⟩)
  · exact Or.inl ⟨(t.2.2, t.1), m3, rfl⟩
  · exact Or.inr (Or.inr ⟨_, _, e2m, e3m, q2, rfl⟩)
  · exact Or.inr (Or.inr ⟨_, _, e3m, e1m, fun h => q3 h, rfl⟩)
  · exact Or.inr (Or.inr ⟨_, _, e1m, e2m, q1, rfl⟩)

theorem childDirEdges_nodup {n : ℕ} {μ : ℕ × ℕ → ℕ} {t : ℕ × ℕ × ℕ}
    (hlt : t.1 < n ∧ t.2.1 < n ∧ t.2.2 < n)
    (hne : t.1 ≠ t.2.1 ∧ t.2.1 ≠ t.2.2 ∧ t.2.2 ≠ t.1)
    (hM : n ≤ μ (canon t.1 t.2.1) ∧ n ≤ μ (canon t.2.1 t.2.2) ∧ n ≤ μ (canon t.2.2 t.1))
    (hMne : μ (canon t.1 t.2.1) ≠ μ (canon t.2.1 t.2.2) ∧
        μ (canon t.2.1 t.2.2) ≠ μ (canon t.2.2 t.1) ∧
          μ (canon t.2.2 t.1) ≠ μ (canon t.1 t.2.1)) :
    (childDirEdges μ t).Nodup := by
  rw [childDirEdges_eq]
  obtain ⟨ha, hb, hc⟩ := hlt
  obtain ⟨hab, hbc, hca⟩ := hne
  obtain ⟨hM1, hM2, hM3⟩ := hM
  obtain ⟨hN1, hN2, hN3⟩ := hMne
  simp only [List.nodup_cons, List.mem_cons, List.not_mem_nil, or_false, List.nodup_nil,
    and_true, Prod.mk.injEq, not_or, not_false_eq_true]
  refine ⟨?_, ?_, ?_, ?_, ?_, ?_, ?_, ?_, ?_, ?_, ?_⟩ <;> omega

/-- Child directed edges of two parents that share no directed edge and have
different vertex sets are disjoint. -/
theorem childDirEdges_disjoint {n : ℕ} {μ : ℕ × ℕ → ℕ} {t u : ℕ × ℕ × ℕ}
    (htlt : t.1 < n ∧ t.2.1 < n ∧ t.2.2 < n)
    (htne : t.1 ≠ t.2.1 ∧ t.2.1 ≠ t.2.2 ∧ t.2.2 ≠ t.1)
    (hult : u.1 < n ∧ u.2.1 < n ∧ u.2.2 < n)
    (hune : u.1 ≠ u.2.1 ∧ u.2.1 ≠ u.2.2 ∧ u.2.2 ≠ u.1)
    (hft : ∀ e ∈ edgesOf t, n ≤ μ e) (hfu : ∀ e ∈ edgesOf u, n ≤ μ e)
    (hinj : ∀ e ∈ edgesOf t, ∀ f ∈ edgesOf u, μ e = μ f → e = f)
    (hdisj : ∀ d ∈ dirEdges t, d ∉ dirEdges u)
    (hvs : vertexSet t ≠ vertexSet u) :
    ∀ d ∈ childDirEdges μ t, d ∉ childDirEdges μ u := by
  intro d hd hd'
  rcases childDirEdges_cases htne hd with ⟨x, hx, rfl⟩ | ⟨x, hx, hdx⟩ | ⟨e1, e2, he1, he2, hee, hdx⟩
  · rcases childDirEdges_cases hune hd' with ⟨y, hy, hxy⟩ | ⟨y, hy, hxy⟩ | ⟨f1, f2, hf1, hf2, hff, hxy⟩
    · have h1 : x.1 = y.1 := (Prod.mk.inj hxy).1
      have h2 : μ (canon x.1 x.2) = μ (canon y.1 y.2) := (Prod.mk.inj hxy).2
      have hcan : canon x.1 x.2 = canon y.1 y.2 :=
        hinj _ (canon_dir_mem_edges hx) _ (canon_dir_mem_edges hy) h2
      rcases canon_eq_iff.mp hcan with ⟨ha, hb⟩ | ⟨ha, hb⟩
      · have : x = y := Prod.ext ha hb
        exact hdisj x hx (this ▸ hy)
      · have hyne : y.1 ≠ y.2 := dir_mem_ne hune hy
        omega
    · have h1 : x.1 = μ (canon y.1 y.2) := (Prod.mk.inj hxy).1
      have := (dir_mem_lt htlt hx).1
      have := hfu _ (canon_dir_mem_edges hy)
      omega
    · have h1 : x.1 = μ f1 := (Prod.mk.inj hxy).1
      have := (dir_mem_lt htlt hx).1
      have := hfu _ hf1
      omega
  · subst hdx
    rcases childDirEdges_cases hune hd' with ⟨y, hy, hxy⟩ | ⟨y, hy, hxy⟩ | ⟨f1, f2, hf1, hf2, hff, hxy⟩
    · have h1 : μ (canon x.1 x.2) = y.1 := (Prod.mk.inj hxy).1
      have := (dir_mem_lt hult hy).1
      have := hft _ (canon_dir_mem_edges hx)
      omega
    · have h1 : μ (canon x.1 x.2) = μ (canon y.1 y.2) := (Prod.mk.inj hxy).1
      have h2 : x.2 = y.2 := (Prod.mk.inj hxy).2
      have hcan : canon x.1 x.2 = canon y.1 y.2 :=
        hinj _ (canon_dir_mem_edges hx) _ (canon_dir_mem_edges hy) h1
      rcases canon_eq_iff.mp hcan with ⟨ha, hb⟩ | ⟨ha, hb⟩
      · have : x = y := Prod.ext ha hb
        exact hdisj x hx (this ▸ hy)
      · have hyne : y.1 ≠ y.2 := dir_mem_ne hune hy
        omega
    · have h1 : x.2 = μ f2 := (Prod.mk.inj hxy).2
      have := (dir_mem_lt htlt hx).2
      have := hfu _ hf2
      omega
  · subst hdx
    rcases childDirEdges_cases hune hd' with ⟨y, hy, hxy⟩ | ⟨y, hy, hxy⟩ | ⟨f1, f2, hf1, hf2, hff, hxy⟩
    · have h1 : μ e1 = y.1 := (Prod.mk.inj hxy).1
      have := (dir_mem_lt hult hy).1
      have := hft _ he1
      omega
    · have h2 : μ e2 = y.2 := (Prod.mk.inj hxy).2
      have := (dir_mem_lt hult hy).2
      have := hft _ he2
      omega
    · have h1 : μ e1 = μ f1 := (Prod.mk.inj hxy).1
      have h2 : μ e2 = μ f2 := (Prod.mk.inj hxy).2
      have hef1 : e1 = f1 := hinj _ he1 _ hf1 h1
      have hef2 : e2 = f2 := hinj _ he2 _ hf2 h2
      exact hvs (two_edges_span htne hune he1 he2 (hef1 ▸ hf1) (hef2 ▸ hf2) hee)

theorem vs_ne_of_mem_notMem {u v : ℕ × ℕ × ℕ} {x : ℕ} (hx : x ∈ vertexSet u)
    (hnx : x ∉ vertexSet v) : vertexSet u ≠ vertexSet v := fun h => hnx (h ▸ hx)

theorem childAll_cases {μ : ℕ × ℕ → ℕ} {t a : ℕ × ℕ × ℕ} (ha : a ∈ childAll μ t) :
    a = (t.1, μ (canon t.1 t.2.1), μ (canon t.2.2 t.1)) ∨
      a = (μ (canon t.1 t.2.1), t.2.1, μ (canon t.2.1 t.2.2)) ∨
        a = (μ (canon t.2.2 t.1), μ (canon t.2.1 t.2.2), t.2.2) ∨
          a = (μ (canon t.2.1 t.2.2), μ (canon t.2.2 t.1), μ (canon t.1 t.2.1)) := by
  simpa [childAll, apFaces, rwFace, midOf] using ha

/-- Every child face contains the midpoints of two distinct parent edges. -/
theorem child_two_mids {μ : ℕ × ℕ → ℕ} {t : ℕ × ℕ × ℕ}
    (htne : t.1 ≠ t.2.1 ∧ t.2.1 ≠ t.2.2 ∧ t.2.2 ≠ t.1) :
    ∀ a ∈ childAll μ t, ∃ e1 e2, e1 ∈ edgesOf t ∧ e2 ∈ edgesOf t ∧ e1 ≠ e2 ∧
      μ e1 ∈ vertexSet a ∧ μ e2 ∈ vertexSet a := by
  intro a ha
  obtain ⟨q1, q2, q3⟩ := edgesOf_pairwise_ne htne
  have e1m : canon t.1 t.2.1 ∈ edgesOf t := by simp [edgesOf]
  have e2m : canon t.2.1 t.2.2 ∈ edgesOf t := by simp [edgesOf]
  have e3m : canon t.2.2 t.1 ∈ edgesOf t := by simp [edgesOf]
  rcases childAll_cases ha with rfl | rfl | rfl | rfl
  · exact ⟨_, _, e1m, e3m, fun h => q3 h.symm, by simp [vertexSet], by simp [vertexSet]⟩
  · exact ⟨_, _, e1m, e2m, q1, by simp [vertexSet], by simp [vertexSet]⟩
  · exact ⟨_, _, e3m, e2m, q2.symm, by simp [vertexSet], by simp [vertexSet]⟩
  · exact ⟨_, _, e2m, e3m, q2, by simp [vertexSet], by simp [vertexSet]⟩

/-- Every vertex of a child face is an old corner or a parent edge
midpoint. -/
theorem child_vertex_cases {n : ℕ} {μ : ℕ × ℕ → ℕ} {t : ℕ × ℕ × ℕ}
    (hlt : t.1 < n ∧ t.2.1 < n ∧ t.2.2 < n) :
    ∀ a ∈ childAll μ t, ∀ w ∈ vertexSet a, w < n ∨ ∃ f ∈ edgesOf t, w = μ f := by
  intro a ha w hw
  have e1m : canon t.1 t.2.1 ∈ edgesOf t := by simp [edgesOf]
  have e2m : canon t.2.1 t.2.2 ∈ edgesOf t := by simp [edgesOf]
  have e3m : canon t.2.2 t.1 ∈ edgesOf t := by simp [edgesOf]
  rcases childAll_cases ha with rfl | rfl | rfl | rfl <;>
    rcases (by simpa [vertexSet] using hw : _ ∨ _ ∨ _) with rfl | rfl | rfl
  · exact Or.inl hlt.1
  · exact Or.inr ⟨_, e1m, rfl⟩
  · exact Or.inr ⟨_, e3m, rfl⟩
  · exact Or.inr ⟨_, e1m, rfl⟩
  · exact Or.inl hlt.2.1
  · exact Or.inr ⟨_, e2m, rfl⟩
  · exact Or.inr ⟨_, e3m, rfl⟩
  · exact Or.inr ⟨_, e2m, rfl⟩
  · exact Or.inl hlt.2.2
  · exact Or.inr ⟨_, e2m, rfl⟩
  · exact Or.inr ⟨_, e3m, rfl⟩
  · exact Or.inr ⟨_, e1m, rfl⟩

/-- Child faces of parents with different vertex sets have different vertex
sets. -/
theorem child_vs_ne {n : ℕ} {μ : ℕ × ℕ → ℕ} {t u : ℕ × ℕ × ℕ}
    (htlt : t.1 < n ∧ t.2.1 < n ∧ t.2.2 < n)
    (htne : t.1 ≠ t.2.1 ∧ t.2.1 ≠ t.2.2 ∧ t.2.2 ≠ t.1)
    (hult : u.1 < n ∧ u.2.1 < n ∧ u.2.2 < n)
    (hune : u.1 ≠ u.2.1 ∧ u.2.1 ≠ u.2.2 ∧ u.2.2 ≠ u.1)
    (hft : ∀ e ∈ edgesOf t, n ≤ μ e)
    (hinj : ∀ e ∈ edgesOf t, ∀ f ∈ edgesOf u, μ e = μ f → e = f)
    (hvs : vertexSet t ≠ vertexSet u) :
    ∀ a ∈ childAll μ t, ∀ b ∈ childAll μ u, vertexSet a ≠ vertexSet b := by
  intro a ha b hb h
  obtain ⟨e1, e2, he1, he2, hee, hm1, hm2⟩ := child_two_mids htne a ha
  have hm1b : μ e1 ∈ vertexSet b := h ▸ hm1
  have hm2b : μ e2 ∈ vertexSet b := h ▸ hm2
  rcases child_vertex_cases hult b hb _ hm1b with hlt1 | ⟨f1, hf1, hμ1⟩
  · exact absurd hlt1 (by have := hft e1 he1; omega)
  rcases child_vertex_cases hult b hb _ hm2b with hlt2 | ⟨f2, hf2, hμ2⟩
  · exact absurd hlt2 (by have := hft e2 he2; omega)
  have hef1 : e1 = f1 := hinj _ he1 _ hf1 hμ1
  have hef2 : e2 = f2 := hinj _ he2 _ hf2 hμ2
  exact hvs (two_edges_span htne hune he1 he2 (hef1 ▸ hf1) (hef2 ▸ hf2) hee)

/-- One level of subdivision preserves the combinatorial invariant, when the
midpoint assignment is fresh and injective on the current edges. -/
theorem goodFaces_subdiv {n n' : ℕ} {fs : List (ℕ × ℕ × ℕ)} {μ : ℕ × ℕ → ℕ}
    (hgood : goodFaces n fs) (hn : n ≤ n')
    (hfresh : ∀ e ∈ allEdges fs, n ≤ μ e ∧ μ e < n')
    (hinj : ∀ e ∈ allEdges fs, ∀ f ∈ allEdges fs, μ e = μ f → e = f) :
    goodFaces n' (childrenOf μ fs) := by
  obtain ⟨hcorn, hnodup, hswap, hpair⟩ := hgood
  have hperm := childrenOf_perm μ fs
  have hpermE : (allDirEdges (childrenOf μ fs)).Perm (fs.flatMap (childDirEdges μ)) := by
    show ((childrenOf μ fs).flatMap dirEdges).Perm _
    have h1 := hperm.flatMap_right dirEdges
    rw [List.flatMap_assoc] at h1
    exact h1
  have hparentsplit : allDirEdges fs = fs.flatMap dirEdges := rfl
  have hpairD : List.Pairwise (fun t u => ∀ d ∈ dirEdges t, d ∉ dirEdges u) fs := by
    have := (List.nodup_flatMap.mp (hparentsplit ▸ hnodup)).2
    exact this.imp fun h d hd hd' => h hd hd'
  have hMfacts : ∀ t ∈ fs, (n ≤ μ (canon t.1 t.2.1) ∧ μ (canon t.1 t.2.1) < n') ∧
      (n ≤ μ (canon t.2.1 t.2.2) ∧ μ (canon t.2.1 t.2.2) < n') ∧
        (n ≤ μ (canon t.2.2 t.1) ∧ μ (canon t.2.2 t.1) < n') := by
    intro t ht
    exact ⟨hfresh _ (edges_mem_allEdges ht (by simp [edgesOf])),
      hfresh _ (edges_mem_allEdges ht (by simp [edgesOf])),
      hfresh _ (edges_mem_allEdges ht (by simp [edgesOf]))⟩
  have hinjt : ∀ t ∈ fs, ∀ u ∈ fs, ∀ e ∈ edgesOf t, ∀ f ∈ edgesOf u, μ e = μ f → e = f :=
    fun t ht u hu e he f hf =>
      hinj e (edges_mem_allEdges ht he) f (edges_mem_allEdges hu hf)
  have hMne : ∀ t ∈ fs, μ (canon t.1 t.2.1) ≠ μ (canon t.2.1 t.2.2) ∧
      μ (canon t.2.1 t.2.2) ≠ μ (canon t.2.2 t.1) ∧
        μ (canon t.2.2 t.1) ≠ μ (canon t.1 t.2.1) := by
    intro t ht
    obtain ⟨q1, q2, q3⟩ := edgesOf_pairwise_ne (hcorn t ht).2
    refine ⟨fun h => q1 ?_, fun h => q2 ?_, fun h => q3 ?_⟩ <;>
      exact hinjt t ht t ht _ (by simp [edgesOf]) _ (by simp [edgesOf]) h
  refine ⟨?_, ?_, ?_, ?_⟩
  · intro a ha
    have ha' : a ∈ fs.flatMap (childAll μ) := hperm.mem_iff.mp ha
    obtain ⟨t, ht, ha4⟩ := List.mem_flatMap.mp ha'
    obtain ⟨⟨hb1, hb2, hb3⟩, hd1, hd2, hd3⟩ := hcorn t ht
    obtain ⟨hM1, hM2, hM3⟩ := hMfacts t ht
    obtain ⟨hN1, hN2, hN3⟩ := hMne t ht
    rcases childAll_cases ha4 with rfl | rfl | rfl | rfl <;>
      exact ⟨by refine ⟨?_, ?_, ?_⟩ <;> simp <;> omega,
        by simp <;> omega, by simp <;> omega, by simp <;> omega⟩
  · rw [hpermE.nodup_iff]
    rw [List.nodup_flatMap]
    constructor
    · intro t ht
      obtain ⟨hM1, hM2, hM3⟩ := hMfacts t ht
      exact childDirEdges_nodup (hcorn t ht).1 (hcorn t ht).2
        ⟨hM1.1, hM2.1, hM3.1⟩ (hMne t ht)
    · have hcomb := hpairD.and hpair
      refine hcomb.imp_of_mem ?_
      intro t u ht hu ⟨hdisjtu, hvstu⟩
      exact childDirEdges_disjoint (hcorn t ht).1 (hcorn t ht).2 (hcorn u hu).1
        (hcorn u hu).2
        (fun e he => (hfresh e (edges_mem_allEdges ht he)).1)
        (fun e he => (hfresh e (edges_mem_allEdges hu he)).1)
        (hinjt t ht u hu) hdisjtu hvstu
  · intro d hd
    rw [hpermE.mem_iff] at hd
    rw [hpermE.mem_iff]
    obtain ⟨t, ht, hdt⟩ := List.mem_flatMap.mp hd
    rcases childDirEdges_cases (hcorn t ht).2 hdt with ⟨x, hx, rfl⟩ | ⟨x, hx, rfl⟩ |
        ⟨e1, e2, he1, he2, hee, rfl⟩
    · have hxa : x ∈ allDirEdges fs := List.mem_flatMap.mpr ⟨t, ht, hx⟩
      have hrev := hswap x hxa
      obtain ⟨u, hu, hxu⟩ := List.mem_flatMap.mp hrev
      refine List.mem_flatMap.mpr ⟨u, hu, ?_⟩
      have := half2_mem (μ := μ) hxu
      simpa [canon_comm x.2 x.1] using this
    · have hxa : x ∈ allDirEdges fs := List.mem_flatMap.mpr ⟨t, ht, hx⟩
      have hrev := hswap x hxa
      obtain ⟨u, hu, hxu⟩ := List.mem_flatMap.mp hrev
      refine List.mem_flatMap.mpr ⟨u, hu, ?_⟩
      have := half1_mem (μ := μ) hxu
      simpa [canon_comm x.2 x.1] using this
    · exact List.mem_flatMap.mpr ⟨t, ht, inner_mem he2 he1 (fun h => hee h.symm)⟩
  · rw [hperm.pairwise_iff (fun h => h.symm)]
    rw [List.pairwise_flatMap]
    constructor
    · intro t ht
      obtain ⟨⟨hb1, hb2, hb3⟩, hd1, hd2, hd3⟩ := hcorn t ht
      obtain ⟨hM1, hM2, hM3⟩ := hMfacts t ht
      obtain ⟨hN1, hN2, hN3⟩ := hMne t ht
      show List.Pairwise _ (childAll μ t)
      rw [show childAll μ t = [(t.1, μ (canon t.1 t.2.1), μ (canon t.2.2 t.1)),
            (μ (canon t.1 t.2.1), t.2.1, μ (canon t.2.1 t.2.2)),
            (μ (canon t.2.2 t.1), μ (canon t.2.1 t.2.2), t.2.2),
            (μ (canon t.2.1 t.2.2), μ (canon t.2.2 t.1), μ (canon t.1 t.2.1))] by
          simp [childAll, apFaces, rwFace, midOf]]
      refine List.Pairwise.cons ?_ (List.Pairwise.cons ?_ (List.Pairwise.cons ?_
        (List.pairwise_singleton _ _)))
      · intro b hb
        refine vs_ne_of_mem_notMem (x := t.1) (by simp [vertexSet]) ?_
        rcases (by simpa using hb : b = _ ∨ b = _ ∨ b = _) with rfl | rfl | rfl <;>
          simp [vertexSet] <;> omega
      · intro b hb
        refine vs_ne_of_mem_notMem (x := t.2.1) (by simp [vertexSet]) ?_
        rcases (by simpa using hb : b = _ ∨ b = _) with rfl | rfl <;>
          simp [vertexSet] <;> omega
      · intro b hb
        refine vs_ne_of_mem_notMem (x := t.2.2) (by simp [vertexSet]) ?_
        rcases (by simpa using hb : b = _) with rfl
        simp [vertexSet]
        omega
    · refine hpair.imp_of_mem ?_
      intro t u ht hu hvstu
      exact child_vs_ne (hcorn t ht).1 (hcorn t ht).2 (hcorn u hu).1 (hcorn u hu).2
        (fun e he => (hfresh e (edges_mem_allEdges ht he)).1)
        (hinjt t ht u hu) hvstu

theorem canon_snd_ge (a b : ℕ) : a ≤ (canon a b).2 ∧ b ≤ (canon a b).2 := by
  unfold canon
  split_ifs <;> simp <;> omega

theorem edgesOf_endpoint_lt {n : ℕ} {t : ℕ × ℕ × ℕ}
    (hlt : t.1 < n ∧ t.2.1 < n ∧ t.2.2 < n) {e : ℕ × ℕ} (he : e ∈ edgesOf t) :
    e.1 < n ∧ e.2 < n := by
  rcases (by simpa [edgesOf] using he : e = canon t.1 t.2.1 ∨ e = canon t.2.1 t.2.2 ∨
      e = canon t.2.2 t.1) with rfl | rfl | rfl <;>
    unfold canon <;> split_ifs <;> simp <;> omega

theorem edgesOf_fst_lt_snd {t : ℕ × ℕ × ℕ}
    (hne : t.1 ≠ t.2.1 ∧ t.2.1 ≠ t.2.2 ∧ t.2.2 ≠ t.1) {e : ℕ × ℕ} (he : e ∈ edgesOf t) :
    e.1 < e.2 := by
  rcases (by simpa [edgesOf] using he : e = canon t.1 t.2.1 ∨ e = canon t.2.1 t.2.2 ∨
      e = canon t.2.2 t.1) with rfl | rfl | rfl
  · exact canon_fst_lt_snd hne.1
  · exact canon_fst_lt_snd hne.2.1
  · exact canon_fst_lt_snd hne.2.2

/-- Every edge of a child face reaches at least one fresh midpoint index, so
its larger endpoint is at least n. -/
theorem child_edges_ge {n : ℕ} {μ : ℕ × ℕ → ℕ} {t : ℕ × ℕ × ℕ}
    (hM : n ≤ μ (canon t.1 t.2.1) ∧ n ≤ μ (canon t.2.1 t.2.2) ∧ n ≤ μ (canon t.2.2 t.1)) :
    ∀ a ∈ childAll μ t, ∀ e ∈ edgesOf a, n ≤ e.2 := by
  intro a ha e he
  obtain ⟨hM1, hM2, hM3⟩ := hM
  rcases childAll_cases ha with rfl | rfl | rfl | rfl <;>
    rcases (by simpa [edgesOf] using he : _ ∨ _ ∨ _) with rfl | rfl | rfl <;>
      first
          | exact le_trans hM1 (canon_snd_ge _ _).1
          | exact le_trans hM1 (canon_snd_ge _ _).2
          | exact le_trans hM2 (canon_snd_ge _ _).1
          | exact le_trans hM2 (canon_snd_ge _ _).2
          | exact le_trans hM3 (canon_snd_ge _ _).1
          | exact le_trans hM3 (canon_snd_ge _ _).2

theorem allEdges_eq_map (fs : List (ℕ × ℕ × ℕ)) :
    allEdges fs = (allDirEdges fs).map fun d => canon d.1 d.2 := by
  unfold allEdges allDirEdges
  rw [List.map_flatMap]
  rfl

theorem length_allEdges (fs : List (ℕ × ℕ × ℕ)) : (allEdges fs).length = 3 * fs.length := by
  induction fs with
  | nil => rfl
  | cons t ts ih =>
    show (edgesOf t ++ allEdges ts).length = _
    rw [List.length_append, ih]
    simp [edgesOf]
    omega

theorem count_allEdges_eq_two {n : ℕ} {fs : List (ℕ × ℕ × ℕ)} (hgood : goodFaces n fs) :
    ∀ e ∈ allEdges fs, (↑(allEdges fs) : Multiset (ℕ × ℕ)).count e = 2 := by
  obtain ⟨hcorn, hnodup, hswap, -⟩ := hgood
  have hneD : ∀ d ∈ allDirEdges fs, d.1 ≠ d.2 := by
    intro d hd
    obtain ⟨t, ht, hdt⟩ := List.mem_flatMap.mp hd
    exact dir_mem_ne (hcorn t ht).2 hdt
  intro e he
  rw [allEdges_eq_map] at he ⊢
  obtain ⟨d₀, hd₀, rfl⟩ := List.mem_map.mp he
  rw [← Multiset.map_coe, Multiset.count_map]
  have hnd : Multiset.Nodup (↑(allDirEdges fs) : Multiset (ℕ × ℕ)) :=
    Multiset.coe_nodup.mpr hnodup
  have hfn : (Multiset.filter (fun a => canon d₀.1 d₀.2 = canon a.1 a.2)
      (↑(allDirEdges fs) : Multiset (ℕ × ℕ))).Nodup := hnd.filter _
  rw [← Multiset.toFinset_card_of_nodup hfn, Multiset.toFinset_filter]
  have hset : Finset.filter (fun a => canon d₀.1 d₀.2 = canon a.1 a.2)
      (↑(allDirEdges fs) : Multiset (ℕ × ℕ)).toFinset = {d₀, (d₀.2, d₀.1)} := by
    ext x
    rw [Finset.mem_filter, Multiset.mem_toFinset, Multiset.mem_coe]
    simp only [Finset.mem_insert, Finset.mem_singleton]
    constructor
    · rintro ⟨hx, hcx⟩
      rcases canon_eq_iff.mp hcx.symm with ⟨h1, h2⟩ | ⟨h1, h2⟩
      · left
        exact Prod.ext h1 h2
      · right
        exact Prod.ext h1 h2
    · rintro (rfl | rfl)
      · exact ⟨hd₀, rfl⟩
      · refine ⟨hswap d₀ hd₀, ?_⟩
        show canon d₀.1 d₀.2 = canon d₀.2 d₀.1
        exact canon_comm _ _
  rw [hset]
  exact Finset.card_pair (by
    intro h
    exact hneD d₀ hd₀ (by
      have := congrArg Prod.fst h
      simpa using this))

theorem edge_count_card {n : ℕ} {fs : List (ℕ × ℕ × ℕ)} (hgood : goodFaces n fs) :
    2 * (allEdges fs).toFinset.card = 3 * fs.length := by
  have hlen : (allEdges fs).length = 3 * fs.length := length_allEdges fs
  have hsum := Multiset.toFinset_sum_count_eq (↑(allEdges fs) : Multiset (ℕ × ℕ))
  rw [Multiset.coe_card] at hsum
  have hconst : ∑ a ∈ (↑(allEdges fs) : Multiset (ℕ × ℕ)).toFinset,
      (↑(allEdges fs) : Multiset (ℕ × ℕ)).count a =
        ∑ _a ∈ (↑(allEdges fs) : Multiset (ℕ × ℕ)).toFinset, 2 :=
    Finset.sum_congr rfl fun a ha => by
      exact count_allEdges_eq_two hgood a (by
        have : a ∈ (↑(allEdges fs) : Multiset (ℕ × ℕ)).toFinset := ha
        rw [Multiset.mem_toFinset] at this
        exact this)
  rw [hconst, Finset.sum_const, smul_eq_mul] at hsum
  have hTF : (↑(allEdges fs) : Multiset (ℕ × ℕ)).toFinset = (allEdges fs).toFinset := rfl
  rw [hTF] at hsum
  omega

/-- One subdivision level preserves the mesh invariant, quadruples the face
count, only appends vertices, and creates exactly one new vertex per
undirected edge of the level (3 nf / 2 of them). -/
theorem levelStep_good {V : Type} [Inhabited V] (mid : V → V → V) (s : MeshState V)
    (nf : ℕ) (hgm : goodMesh s nf) :
    goodMesh (levelStep mid s nf) (nf * 4) ∧
      (∃ w, (levelStep mid s nf).mc.verts = s.mc.verts ++ w) ∧
        2 * ((levelStep mid s nf).mc.verts.length - s.mc.verts.length) = 3 * nf := by
  obtain ⟨hlen3, hgf, hknd, B, hB, hcache, hBe⟩ := hgm
  have hfl : (facesOf s.indices).length = nf := length_facesOf nf _ hlen3
  have hstep := levelStep_eq mid s nf hlen3
  have hedge : ∀ e ∈ allEdges (facesOf s.indices), e.1 < e.2 ∧ e.2 < s.mc.verts.length := by
    intro e he
    obtain ⟨t, ht, het⟩ := List.mem_flatMap.mp he
    exact ⟨edgesOf_fst_lt_snd (hgf.1 t ht).2 het, (edgesOf_endpoint_lt (hgf.1 t ht).1 het).2⟩
  have hK0dis : ∀ e ∈ allEdges (facesOf s.indices), e ∉ keysOf s.mc.cache := by
    intro e he hmem
    obtain ⟨kv, hkv, hkve⟩ := List.mem_map.mp hmem
    obtain ⟨t, ht, het⟩ := List.mem_flatMap.mp he
    have h1 := (hcache kv hkv).2.1
    have h2 := hBe t ht _ het
    rw [hkve] at h1
    omega
  obtain ⟨K2, hcF, hkeysF, hK2key, hallmem, hvalsF, hlenF, hwF, hrwF, hapF, hposF⟩ :=
    levelFaces_spec mid s.mc.cache s.mc.verts.length (facesOf s.indices) s.mc []
      (by simp) hedge hK0dis (by simpa using hknd) rfl (by simp)
  simp only [List.nil_append, List.length_nil, Nat.zero_add] at hcF hkeysF hallmem hvalsF hlenF
  have hμsome : ∀ e ∈ allEdges (facesOf s.indices),
      ∃ kv ∈ K2, kv.1 = e ∧
        lookupIdx (levelFaces mid s.mc (facesOf s.indices)).1.cache e = kv.2 := by
    intro e he
    have hek : e ∈ keysOf K2 := hallmem e he
    obtain ⟨kv, hkv, hkve⟩ := List.mem_map.mp hek
    have hkNd : (keysOf K2).Nodup := by
      rw [keysOf_append] at hkeysF
      exact (List.nodup_append.mp hkeysF).2.1
    have hlk : K2.lookup kv.1 = some kv.2 := lookup_of_mem_nodup hkNd hkv
    have hnone : s.mc.cache.lookup e = none :=
      lookup_eq_none_of_not_mem_keys (hK0dis e he)
    refine ⟨kv, hkv, hkve, ?_⟩
    rw [lookupIdx, hcF, List.lookup_append, hnone]
    rw [hkve] at hlk
    simp [hlk]
  have hval_mem : ∀ kv ∈ K2, s.mc.verts.length ≤ kv.2 ∧
      kv.2 < s.mc.verts.length + K2.length := by
    intro kv hkv
    have : kv.2 ∈ valsOf K2 := List.mem_map_of_mem _ hkv
    rw [hvalsF] at this
    simpa using List.mem_range'_1.mp this
  have hfreshμ : ∀ e ∈ allEdges (facesOf s.indices),
      s.mc.verts.length ≤ lookupIdx (levelFaces mid s.mc (facesOf s.indices)).1.cache e ∧
        lookupIdx (levelFaces mid s.mc (facesOf s.indices)).1.cache e <
          (levelFaces mid s.mc (facesOf s.indices)).1.verts.length := by
    intro e he
    obtain ⟨kv, hkv, -, hlk⟩ := hμsome e he
    rw [hlk, hlenF]
    exact hval_mem kv hkv
  have hinjμ : ∀ e ∈ allEdges (facesOf s.indices), ∀ f ∈ allEdges (facesOf s.indices),
      lookupIdx (levelFaces mid s.mc (facesOf s.indices)).1.cache e =
          lookupIdx (levelFaces mid s.mc (facesOf s.indices)).1.cache f → e = f := by
    intro e he f hf hef
    obtain ⟨kv, hkv, hkve, hlk⟩ := hμsome e he
    obtain ⟨kw, hkw, hkwf, hlkw⟩ := hμsome f hf
    have hvnd : (valsOf K2).Nodup := by
      rw [hvalsF]
      exact List.nodup_range' _ _
    have : kv.2 = kw.2 := by rw [← hlk, ← hlkw, hef]
    have hkk : kv.1 = kw.1 := by
      have h1 : (kv.1, kv.2) ∈ K2 := by simpa using hkv
      have h2 : (kw.1, kv.2) ∈ K2 := by rw [this]; simpa using hkw
      exact key_eq_of_val_eq hvnd h1 h2
    rw [← hkve, ← hkwf, hkk]
  have hfaces' : facesOf (levelStep mid s nf).indices =
      childrenOf (lookupIdx (levelFaces mid s.mc (facesOf s.indices)).1.cache)
        (facesOf s.indices) := by
    rw [hstep]
    show facesOf (flatOf _ ++ flatOf _) = _
    rw [← flatOf_append, facesOf_flatOf, childrenOf, hrwF, hapF]
  have hmc' : (levelStep mid s nf).mc = (levelFaces mid s.mc (facesOf s.indices)).1 := by
    rw [hstep]
  have hn' : s.mc.verts.length ≤ (levelFaces mid s.mc (facesOf s.indices)).1.verts.length := by
    rw [hlenF]
    omega
  have hK2card : 2 * K2.length = 3 * nf := by
    have hkNd : (keysOf K2).Nodup := by
      rw [keysOf_append] at hkeysF
      exact (List.nodup_append.mp hkeysF).2.1
    have hTFeq : (keysOf K2).toFinset = (allEdges (facesOf s.indices)).toFinset := by
      ext x
      rw [List.mem_toFinset, List.mem_toFinset]
      constructor
      · intro hx
        obtain ⟨kv, hkv, hkve⟩ := List.mem_map.mp hx
        exact hkve ▸ hK2key kv hkv
      · intro hx
        exact hallmem x hx
    have h1 : K2.length = (keysOf K2).length := (List.length_map _ _).symm
    have h2 : (keysOf K2).length = (keysOf K2).toFinset.card :=
      (List.toFinset_card_of_nodup hkNd).symm
    have h3 := edge_count_card hgf
    rw [hfl] at h3
    rw [h1, h2, hTFeq]
    exact h3
  have hindlen : (levelStep mid s nf).indices.length = 3 * (nf * 4) := by
    rw [hstep]
    show (flatOf _ ++ flatOf _).length = _
    rw [← flatOf_append, length_flatOf, hrwF, hapF]
    rw [← childrenOf]
    rw [length_childrenOf, hfl]
    ring
  refine ⟨⟨hindlen, ?_, ?_, ?_⟩, ?_, ?_⟩
  · rw [hfaces', hmc']
    exact goodFaces_subdiv hgf hn' hfreshμ hinjμ
  · rw [hmc', hcF, keysOf_append]
    rw [keysOf_append] at hkeysF
    exact hkeysF
  · refine ⟨s.mc.verts.length, ?_, ?_, ?_⟩
    · rw [hmc']
      exact hn'
    · intro kv hkv
      rw [hmc', hcF] at hkv
      rw [hmc', hlenF]
      rcases List.mem_append.mp hkv with hold | hnew
      · have := hcache kv hold
        omega
      · have h1 := hedge _ (hK2key kv hnew)
        have h2 := hval_mem kv hnew
        omega
    · intro t ht e he
      rw [hfaces'] at ht
      have ht' := (childrenOf_perm _ _).mem_iff.mp ht
      obtain ⟨u, hu, hut⟩ := List.mem_flatMap.mp ht'
      have hM : s.mc.verts.length ≤
          lookupIdx (levelFaces mid s.mc (facesOf s.indices)).1.cache (canon u.1 u.2.1) ∧
          s.mc.verts.length ≤
            lookupIdx (levelFaces mid s.mc (facesOf s.indices)).1.cache (canon u.2.1 u.2.2) ∧
            s.mc.verts.length ≤
              lookupIdx (levelFaces mid s.mc (facesOf s.indices)).1.cache (canon u.2.2 u.1) :=
        ⟨(hfreshμ _ (edges_mem_allEdges hu (by simp [edgesOf]))).1,
          (hfreshμ _ (edges_mem_allEdges hu (by simp [edgesOf]))).1,
          (hfreshμ _ (edges_mem_allEdges hu (by simp [edgesOf]))).1⟩
      exact child_edges_ge hM t hut e he
  · rw [hmc']
    exact hwF
  · rw [hmc', hlenF]
    omega

/-- The level loop preserves the invariant; faces multiply by 4 per level and
the doubled vertex count grows by nf (4^L - 1). -/
theorem subdivideLevels_good {V : Type} [Inhabited V] (mid : V → V → V) :
    ∀ (L : ℕ) (s : MeshState V) (nf : ℕ), goodMesh s nf →
      goodMesh (subdivideLevels mid s nf L) (nf * 4 ^ L) ∧
        (∃ w, (subdivideLevels mid s nf L).mc.verts = s.mc.verts ++ w) ∧
          2 * (subdivideLevels mid s nf L).mc.verts.length + nf =
            2 * s.mc.verts.length + nf * 4 ^ L
  | 0, s, nf, h => by
    refine ⟨by simpa using h, ⟨[], by simp [subdivideLevels]⟩, by simp [subdivideLevels]⟩
  | L + 1, s, nf, h => by
    obtain ⟨h1, ⟨w1, hw1⟩, hc1⟩ := levelStep_good mid s nf h
    obtain ⟨h2, ⟨w2, hw2⟩, hc2⟩ :=
      subdivideLevels_good mid L (levelStep mid s nf) (nf * 4) h1
    refine ⟨?_, ⟨w1 ++ w2, ?_⟩, ?_⟩
    · show goodMesh (subdivideLevels mid (levelStep mid s nf) (nf * 4) L) _
      have e : nf * 4 ^ (L + 1) = nf * 4 * 4 ^ L := by ring
      rw [e]
      exact h2
    · show (subdivideLevels mid (levelStep mid s nf) (nf * 4) L).mc.verts = _
      rw [hw2, hw1, List.append_assoc]
    · show 2 * (subdivideLevels mid (levelStep mid s nf) (nf * 4) L).mc.verts.length + nf = _
      have e1 : nf * 4 * 4 ^ L = nf * 4 ^ (L + 1) := by ring
      have hlen1 : (levelStep mid s nf).mc.verts.length = s.mc.verts.length + w1.length := by
        rw [hw1]
        simp
      omega

/-- The state assembled by icosphere before any subdivision satisfies the
invariant, for any vertex list of length 12. -/
theorem goodMesh_base {V : Type} (bv : List V) (hbv : bv.length = 12) :
    goodMesh (⟨⟨bv, []⟩, icoIndices⟩ : MeshState V) 20 := by
  refine ⟨?_, ?_, ?_, 0, ?_, ?_, ?_⟩
  · rw [icoIndices_eq]
    rfl
  · show goodFaces bv.length (facesOf icoIndices)
    rw [hbv, icoIndices_eq]
    decide
  · simp [keysOf]
  · omega
  · intro kv hkv
    simp at hkv
  · intro t ht e he
    omega

theorem baseVertsR_length : baseVertsR.length = 12 := by
  rw [baseVertsR, List.length_map]
  rfl

/-- Invariant and exact counts for the full model at any level. -/
theorem icosphereModel_spec {V : Type} [Inhabited V] (mid : V → V → V) (bv : List V)
    (hbv : bv.length = 12) (L : ℕ) :
    goodMesh (icosphereModel mid bv L) (20 * 4 ^ L) ∧
      (icosphereModel mid bv L).mc.verts.length = 2 + 10 * 4 ^ L ∧
        (icosphereModel mid bv L).indices.length = 3 * (20 * 4 ^ L) ∧
          ∃ w, (icosphereModel mid bv L).mc.verts = bv ++ w := by
  obtain ⟨hg, ⟨w, hw⟩, hc⟩ :=
    subdivideLevels_good mid L (⟨⟨bv, []⟩, icoIndices⟩ : MeshState V) 20
      (goodMesh_base bv hbv)
  have hvl : (icosphereModel mid bv L).mc.verts.length = 2 + 10 * 4 ^ L := by
    show (subdivideLevels mid _ 20 L).mc.verts.length = _
    have hbase : ((⟨⟨bv, []⟩, icoIndices⟩ : MeshState V)).mc.verts.length = 12 := hbv
    rw [hbase] at hc
    omega
  refine ⟨hg, hvl, hg.1, ⟨w, hw⟩⟩

theorem dot_comm (u v : V3 ℝ) : V3.dot u v = V3.dot v u := by
  simp only [V3.dot]
  ring

theorem dot_smul_left (c : ℝ) (u v : V3 ℝ) :
    V3.dot (V3.smul c u) v = c * V3.dot u v := by
  simp only [V3.dot, V3.smul]
  ring

theorem dot_smul_right (c : ℝ) (u v : V3 ℝ) :
    V3.dot u (V3.smul c v) = c * V3.dot u v := by
  simp only [V3.dot, V3.smul]
  ring

theorem dot_add_left (u w v : V3 ℝ) :
    V3.dot (V3.add u w) v = V3.dot u v + V3.dot w v := by
  simp only [V3.dot, V3.add]
  ring

theorem dot_add_right (u w v : V3 ℝ) :
    V3.dot u (V3.add w v) = V3.dot u w + V3.dot u v := by
  simp only [V3.dot, V3.add]
  ring

theorem dot_self_nonneg (v : V3 ℝ) : 0 ≤ V3.dot v v := by
  simp only [V3.dot]
  nlinarith [mul_self_nonneg v.x, mul_self_nonneg v.y, mul_self_nonneg v.z]

theorem smul_smul_v3 (a b : ℝ) (v : V3 ℝ) :
    V3.smul a (V3.smul b v) = V3.smul (a * b) v := by
  simp only [V3.smul, V3.mk.injEq]
  refine ⟨by ring, by ring, by ring⟩

/-- The midpoint computation of line 31, for two points on the sphere whose
dot product is positive: it is a positive multiple of the chord sum and lies
exactly on the sphere. -/
theorem midR_spec {p q : V3 ℝ} (hr : 0 < radiusR)
    (hp : V3.dot p p = radiusR ^ 2) (hq : V3.dot q q = radiusR ^ 2)
    (hpq : 0 < V3.dot p q) :
    ∃ c : ℝ, 0 < c ∧ midR p q = V3.smul c (V3.add p q) ∧
      V3.dot (midR p q) (midR p q) = radiusR ^ 2 := by
  have hm0 : V3.add p (V3.smul (1 / 2) (V3.sub q p)) = V3.smul (1 / 2) (V3.add p q) := by
    simp only [V3.add, V3.smul, V3.sub, V3.mk.injEq]
    refine ⟨by ring, by ring, by ring⟩
  have hquad : V3.dot (V3.smul (1 / 2) (V3.add p q)) (V3.smul (1 / 2) (V3.add p q)) =
      (radiusR ^ 2 + V3.dot p q) / 2 := by
    simp only [V3.dot, V3.smul, V3.add] at hp hq ⊢
    linear_combination (1 / 4) * hp + (1 / 4) * hq
  have hqpos : 0 < V3.dot (V3.smul (1 / 2) (V3.add p q)) (V3.smul (1 / 2) (V3.add p q)) := by
    rw [hquad]
    have h2 : 0 < radiusR ^ 2 := pow_pos hr 2
    linarith
  have hmagpos : 0 < magR (V3.smul (1 / 2) (V3.add p q)) := Real.sqrt_pos.mpr hqpos
  have hmagsq : magR (V3.smul (1 / 2) (V3.add p q)) ^ 2 =
      V3.dot (V3.smul (1 / 2) (V3.add p q)) (V3.smul (1 / 2) (V3.add p q)) :=
    Real.sq_sqrt hqpos.le
  have hmid : midR p q =
      V3.smul (radiusR / magR (V3.smul (1 / 2) (V3.add p q)) * (1 / 2)) (V3.add p q) := by
    rw [midR, hm0, normalizeTo, smul_smul_v3]
  refine ⟨_, by positivity, hmid, ?_⟩
  rw [hmid, dot_smul_left, dot_smul_right]
  have h4 : V3.dot (V3.add p q) (V3.add p q) =
      4 * V3.dot (V3.smul (1 / 2) (V3.add p q)) (V3.smul (1 / 2) (V3.add p q)) := by
    simp only [V3.dot, V3.smul, V3.add]
    ring
  rw [h4, hquad]
  field_simp
  ring_nf
  rw [show magR (V3.smul (1 / 2) (V3.add p q)) ^ 2 = (radiusR ^ 2 + V3.dot p q) / 2 from
    hmagsq.trans hquad]
  field_simp
  ring

theorem edgesOf_corner {t : ℕ × ℕ × ℕ} {e : ℕ × ℕ} (he : e ∈ edgesOf t) :
    cornerOf e.1 t ∧ cornerOf e.2 t := by
  rcases (by simpa [edgesOf] using he : e = canon t.1 t.2.1 ∨ e = canon t.2.1 t.2.2 ∨
      e = canon t.2.2 t.1) with rfl | rfl | rfl <;>
    · unfold canon cornerOf
      split_ifs <;> simp

/-- One subdivision level preserves the geometric invariant of the real
program: all vertices stay on the sphere and all faces keep pairwise
positive corner dot products. -/
theorem levelStep_geom (s : MeshState (V3 ℝ)) (nf : ℕ) (hgm : goodMesh s nf)
    (hr : 0 < radiusR) (hgeom : geomGood s) : geomGood (levelStep midR s nf) := by
  obtain ⟨hlen3, hgf, hknd, B, hB, hcache, hBe⟩ := hgm
  have hstep := levelStep_eq midR s nf hlen3
  have hedge : ∀ e ∈ allEdges (facesOf s.indices), e.1 < e.2 ∧ e.2 < s.mc.verts.length := by
    intro e he
    obtain ⟨t, ht, het⟩ := List.mem_flatMap.mp he
    exact ⟨edgesOf_fst_lt_snd (hgf.1 t ht).2 het, (edgesOf_endpoint_lt (hgf.1 t ht).1 het).2⟩
  have hK0dis : ∀ e ∈ allEdges (facesOf s.indices), e ∉ keysOf s.mc.cache := by
    intro e he hmem
    obtain ⟨kv, hkv, hkve⟩ := List.mem_map.mp hmem
    obtain ⟨t, ht, het⟩ := List.mem_flatMap.mp he
    have h1 := (hcache kv hkv).2.1
    have h2 := hBe t ht _ het
    rw [hkve] at h1
    omega
  obtain ⟨K2, hcF, hkeysF, hK2key, hallmem, hvalsF, hlenF, hwF, hrwF, hapF, hposF⟩ :=
    levelFaces_spec midR s.mc.cache s.mc.verts.length (facesOf s.indices) s.mc []
      (by simp) hedge hK0dis (by simpa using hknd) rfl (by simp)
  simp only [List.nil_append, List.length_nil, Nat.zero_add] at hcF hkeysF hallmem hvalsF hlenF
  have hμsome : ∀ e ∈ allEdges (facesOf s.indices),
      ∃ kv ∈ K2, kv.1 = e ∧
        lookupIdx (levelFaces midR s.mc (facesOf s.indices)).1.cache e = kv.2 := by
    intro e he
    have hek : e ∈ keysOf K2 := hallmem e he
    obtain ⟨kv, hkv, hkve⟩ := List.mem_map.mp hek
    have hkNd : (keysOf K2).Nodup := by
      rw [keysOf_append] at hkeysF
      exact (List.nodup_append.mp hkeysF).2.1
    have hlk : K2.lookup kv.1 = some kv.2 := lookup_of_mem_nodup hkNd hkv
    have hnone : s.mc.cache.lookup e = none :=
      lookup_eq_none_of_not_mem_keys (hK0dis e he)
    refine ⟨kv, hkv, hkve, ?_⟩
    rw [lookupIdx, hcF, List.lookup_append, hnone]
    rw [hkve] at hlk
    simp [hlk]
  have hfaces' : facesOf (levelStep midR s nf).indices =
      childrenOf (lookupIdx (levelFaces midR s.mc (facesOf s.indices)).1.cache)
        (facesOf s.indices) := by
    rw [hstep]
    show facesOf (flatOf _ ++ flatOf _) = _
    rw [← flatOf_append, facesOf_flatOf, childrenOf, hrwF, hapF]
  have hmc' : (levelStep midR s nf).mc = (levelFaces midR s.mc (facesOf s.indices)).1 := by
    rw [hstep]
  obtain ⟨w, hw⟩ := hwF
  have hstable : ∀ i < s.mc.verts.length,
      (levelFaces midR s.mc (facesOf s.indices)).1.verts.getD i default =
        s.mc.verts.getD i default := by
    intro i hi
    rw [hw]
    exact getD_append_left hi _
  have hPquad_old : ∀ i < s.mc.verts.length,
      V3.dot (s.mc.verts.getD i default) (s.mc.verts.getD i default) = radiusR ^ 2 := by
    intro i hi
    refine hgeom.1 _ ?_
    rw [List.getD_eq_getElem _ _ hi]
    exact List.getElem_mem hi
  have hPcorner : ∀ t ∈ facesOf s.indices, ∀ x, cornerOf x t → ∀ y, cornerOf y t →
      0 < V3.dot (s.mc.verts.getD x default) (s.mc.verts.getD y default) := by
    intro t ht x hx y hy
    obtain ⟨hd1, hd2, hd3⟩ := hgeom.2 t ht
    obtain ⟨hb1, hb2, hb3⟩ := (hgf.1 t ht).1
    rcases hx with rfl | rfl | rfl <;> rcases hy with rfl | rfl | rfl
    · rw [hPquad_old _ hb1]
      exact pow_pos hr 2
    · exact hd1
    · rw [dot_comm]
      exact hd3
    · rw [dot_comm]
      exact hd1
    · rw [hPquad_old _ hb2]
      exact pow_pos hr 2
    · exact hd2
    · exact hd3
    · rw [dot_comm]
      exact hd2
    · rw [hPquad_old _ hb3]
      exact pow_pos hr 2
  have hMdecomp : ∀ t ∈ facesOf s.indices, ∀ e ∈ edgesOf t, ∃ c : ℝ, 0 < c ∧
      (levelFaces midR s.mc (facesOf s.indices)).1.verts.getD
          (lookupIdx (levelFaces midR s.mc (facesOf s.indices)).1.cache e) default =
        V3.smul c (V3.add (s.mc.verts.getD e.1 default) (s.mc.verts.getD e.2 default)) ∧
      V3.dot ((levelFaces midR s.mc (facesOf s.indices)).1.verts.getD
            (lookupIdx (levelFaces midR s.mc (facesOf s.indices)).1.cache e) default)
          ((levelFaces midR s.mc (facesOf s.indices)).1.verts.getD
            (lookupIdx (levelFaces midR s.mc (facesOf s.indices)).1.cache e) default) =
        radiusR ^ 2 := by
    intro t ht e he
    have hea := edges_mem_allEdges ht he
    obtain ⟨kv, hkv, hkve, hlk⟩ := hμsome e hea
    have hbnds := hedge e hea
    have hcor := edgesOf_corner he
    have hpos := hposF kv hkv
    rw [hkve] at hpos
    rw [hstable e.1 (by omega), hstable e.2 (by omega)] at hpos
    have hq1 : V3.dot (s.mc.verts.getD e.1 default) (s.mc.verts.getD e.1 default) =
        radiusR ^ 2 := hPquad_old _ (by omega)
    have hq2 : V3.dot (s.mc.verts.getD e.2 default) (s.mc.verts.getD e.2 default) =
        radiusR ^ 2 := hPquad_old _ (by omega)
    have hd : 0 < V3.dot (s.mc.verts.getD e.1 default) (s.mc.verts.getD e.2 default) :=
      hPcorner t ht _ hcor.1 _ hcor.2
    obtain ⟨c, hc, hdec, hquad⟩ := midR_spec hr hq1 hq2 hd
    refine ⟨c, hc, ?_, ?_⟩
    · rw [hlk, hpos, hdec]
    · rw [hlk, hpos, hquad]
  have hkey : ∀ t ∈ facesOf s.indices, ∀ u,
      (cornerOf u t ∨ ∃ e ∈ edgesOf t,
          u = lookupIdx (levelFaces midR s.mc (facesOf s.indices)).1.cache e) → ∀ v,
        (cornerOf v t ∨ ∃ e ∈ edgesOf t,
            v = lookupIdx (levelFaces midR s.mc (facesOf s.indices)).1.cache e) →
          0 < V3.dot ((levelFaces midR s.mc (facesOf s.indices)).1.verts.getD u default)
            ((levelFaces midR s.mc (facesOf s.indices)).1.verts.getD v default) := by
    intro t ht u hu v hv
    have hblt := (hgf.1 t ht).1
    have hcornlt : ∀ x, cornerOf x t → x < s.mc.verts.length := by
      intro x hx
      rcases hx with rfl | rfl | rfl
      · exact hblt.1
      · exact hblt.2.1
      · exact hblt.2.2
    rcases hu with hcu | ⟨e, he, rfl⟩ <;> rcases hv with hcv | ⟨f, hf, rfl⟩
    · rw [hstable u (hcornlt u hcu), hstable v (hcornlt v hcv)]
      exact hPcorner t ht u hcu v hcv
    · obtain ⟨c, hc, hdec, -⟩ := hMdecomp t ht f hf
      rw [hstable u (hcornlt u hcu), hdec, dot_smul_right, dot_add_right]
      have hcf := edgesOf_corner hf
      have h1 := hPcorner t ht u hcu f.1 hcf.1
      have h2 := hPcorner t ht u hcu f.2 hcf.2
      exact mul_pos hc (by linarith)
    · obtain ⟨c, hc, hdec, -⟩ := hMdecomp t ht e he
      rw [hstable v (hcornlt v hcv), hdec, dot_smul_left, dot_add_left]
      have hce := edgesOf_corner he
      have h1 := hPcorner t ht e.1 hce.1 v hcv
      have h2 := hPcorner t ht e.2 hce.2 v hcv
      exact mul_pos hc (by linarith)
    · obtain ⟨c, hc, hdec, -⟩ := hMdecomp t ht e he
      obtain ⟨c', hc', hdec', -⟩ := hMdecomp t ht f hf
      rw [hdec, hdec', dot_smul_left, dot_smul_right, dot_add_left, dot_add_right,
        dot_add_right]
      have hce := edgesOf_corner he
      have hcf := edgesOf_corner hf
      have h11 := hPcorner t ht e.1 hce.1 f.1 hcf.1
      have h12 := hPcorner t ht e.1 hce.1 f.2 hcf.2
      have h21 := hPcorner t ht e.2 hce.2 f.1 hcf.1
      have h22 := hPcorner t ht e.2 hce.2 f.2 hcf.2
      have : 0 < c * c' := mul_pos hc hc'
      nlinarith
  constructor
  · intro v hv
    rw [hmc'] at hv
    obtain ⟨i, hi, hvi⟩ := List.mem_iff_getElem.mp hv
    have hvi' : v = (levelFaces midR s.mc (facesOf s.indices)).1.verts.getD i default := by
      rw [List.getD_eq_getElem _ _ hi, hvi]
    subst hvi'
    by_cases hin : i < s.mc.verts.length
    · rw [hstable i hin]
      exact hPquad_old i hin
    · push_neg at hin
      have hi2 : i < s.mc.verts.length + K2.length := by
        rw [hlenF] at hi
        omega
      have hiv : i ∈ valsOf K2 := by
        rw [hvalsF]
        rw [List.mem_range'_1]
        omega
      obtain ⟨kv, hkv, hkv2⟩ := List.mem_map.mp hiv
      have hpos := hposF kv hkv
      have hea := hK2key kv hkv
      have hbnds := hedge _ hea
      obtain ⟨t, ht, het⟩ := List.mem_flatMap.mp hea
      have hcor := edgesOf_corner het
      rw [hstable kv.1.1 (by omega), hstable kv.1.2 (by omega)] at hpos
      have hq1 : V3.dot (s.mc.verts.getD kv.1.1 default) (s.mc.verts.getD kv.1.1 default) =
          radiusR ^ 2 := hPquad_old _ (by omega)
      have hq2 : V3.dot (s.mc.verts.getD kv.1.2 default) (s.mc.verts.getD kv.1.2 default) =
          radiusR ^ 2 := hPquad_old _ (by omega)
      have hd : 0 < V3.dot (s.mc.verts.getD kv.1.1 default)
          (s.mc.verts.getD kv.1.2 default) := hPcorner t ht _ hcor.1 _ hcor.2
      obtain ⟨c, hc, hdec, hquad⟩ := midR_spec hr hq1 hq2 hd
      rw [hkv2] at hpos
      rw [hpos, hquad]
  · intro t' ht'
    rw [hmc']
    rw [hfaces'] at ht'
    have ht'' := (childrenOf_perm _ _).mem_iff.mp ht'
    obtain ⟨t, ht, hmem4⟩ := List.mem_flatMap.mp ht''
    have e1m : canon t.1 t.2.1 ∈ edgesOf t := by simp [edgesOf]
    have e2m : canon t.2.1 t.2.2 ∈ edgesOf t := by simp [edgesOf]
    have e3m : canon t.2.2 t.1 ∈ edgesOf t := by simp [edgesOf]
    rcases childAll_cases hmem4 with rfl | rfl | rfl | rfl
    · exact ⟨hkey t ht _ (Or.inl (Or.inl rfl)) _ (Or.inr ⟨_, e1m, rfl⟩),
        hkey t ht _ (Or.inr ⟨_, e1m, rfl⟩) _ (Or.inr ⟨_, e3m, rfl⟩),
        hkey t ht _ (Or.inr ⟨_, e3m, rfl⟩) _ (Or.inl (Or.inl rfl))⟩
    · exact ⟨hkey t ht _ (Or.inr ⟨_, e1m, rfl⟩) _ (Or.inl (Or.inr (Or.inl rfl))),
        hkey t ht _ (Or.inl (Or.inr (Or.inl rfl))) _ (Or.inr ⟨_, e2m, rfl⟩),
        hkey t ht _ (Or.inr ⟨_, e2m, rfl⟩) _ (Or.inr ⟨_, e1m, rfl⟩)⟩
    · exact ⟨hkey t ht _ (Or.inr ⟨_, e3m, rfl⟩) _ (Or.inr ⟨_, e2m, rfl⟩),
        hkey t ht _ (Or.inr ⟨_, e2m, rfl⟩) _ (Or.inl (Or.inr (Or.inr rfl))),
        hkey t ht _ (Or.inl (Or.inr (Or.inr rfl))) _ (Or.inr ⟨_, e3m, rfl⟩)⟩
    · exact ⟨hkey t ht _ (Or.inr ⟨_, e2m, rfl⟩) _ (Or.inr ⟨_, e3m, rfl⟩),
        hkey t ht _ (Or.inr ⟨_, e3m, rfl⟩) _ (Or.inr ⟨_, e1m, rfl⟩),
        hkey t ht _ (Or.inr ⟨_, e1m, rfl⟩) _ (Or.inr ⟨_, e2m, rfl⟩)⟩

theorem getD_map_lt {α β : Type} (f : α → β) (l : List α) (i : ℕ) (d : β) (e : α)
    (h : i < l.length) : (l.map f).getD i d = f (l.getD i e) := by
  rw [List.getD_eq_getElem _ _ (by simpa using h), List.getD_eq_getElem _ _ h,
    List.getElem_map]

/-- The dot product of real images of exact vertices is the real value of the
exact dot product. -/
theorem toR3_dot (u v : V3 GR) : V3.dot (toR3 u) (toR3 v) = (V3.dot u v).toReal := by
  simp only [V3.dot, toR3]
  rw [GR.toReal_add, GR.toReal_add, GR.toReal_mul, GR.toReal_mul, GR.toReal_mul]

/-- The square of the program radius is the exact value 2 + tau. -/
theorem radiusR_sq : radiusR ^ 2 = GR.toReal ⟨2, 1⟩ := by
  have h0 : baseVertsR.getD 0 default = toR3 (icoVertices.getD 0 ⟨0, 0, 0⟩) :=
    getD_map_lt toR3 icoVertices 0 default ⟨0, 0, 0⟩ (by decide)
  have hpos : (0 : ℝ) < GR.toReal ⟨2, 1⟩ := (GR.pos_iff _).mp (by decide)
  rw [radiusR, magR, h0, V3.quad, toR3_dot]
  rw [show V3.dot (icoVertices.getD 0 ⟨0, 0, 0⟩) (icoVertices.getD 0 ⟨0, 0, 0⟩) =
    (⟨2, 1⟩ : GR) from by decide]
  exact Real.sq_sqrt hpos.le

theorem radiusR_pos : 0 < radiusR := by
  have h := radiusR_sq
  have hpos : (0 : ℝ) < GR.toReal ⟨2, 1⟩ := (GR.pos_iff _).mp (by decide)
  have hnn : 0 ≤ radiusR := Real.sqrt_nonneg _
  nlinarith

/-- The base mesh of the real program satisfies the geometric invariant. -/
theorem geomGood_base : geomGood (⟨⟨baseVertsR, []⟩, icoIndices⟩ : MeshState (V3 ℝ)) := by
  constructor
  · intro v hv
    obtain ⟨u, hu, rfl⟩ := List.mem_map.mp hv
    show V3.dot (toR3 u) (toR3 u) = _
    rw [toR3_dot, radiusR_sq]
    have hq : ∀ u ∈ icoVertices, V3.dot u u = (⟨2, 1⟩ : GR) := by decide
    rw [hq u hu]
  · intro t ht
    have hti : t ∈ facesOf icoIndices := ht
    have hlt : ∀ t' ∈ facesOf icoIndices, t'.1 < 12 ∧ t'.2.1 < 12 ∧ t'.2.2 < 12 := by
      rw [icoIndices_eq]
      decide
    obtain ⟨h1, h2, h3⟩ := hlt t hti
    have key : ∀ i, i < 12 → ∀ j, j < 12 →
        GR.pos (V3.dot (icoVertices.getD i ⟨0, 0, 0⟩) (icoVertices.getD j ⟨0, 0, 0⟩)) →
        (0 : ℝ) < V3.dot (baseVertsR.getD i default) (baseVertsR.getD j default) := by
      intro i hi j hj hp
      rw [show (baseVertsR.getD i default) = toR3 (icoVertices.getD i ⟨0, 0, 0⟩) from
          getD_map_lt toR3 icoVertices i default ⟨0, 0, 0⟩ (by simpa [icoVertices] using hi),
        show (baseVertsR.getD j default) = toR3 (icoVertices.getD j ⟨0, 0, 0⟩) from
          getD_map_lt toR3 icoVertices j default ⟨0, 0, 0⟩ (by simpa [icoVertices] using hj),
        toR3_dot]
      exact (GR.pos_iff _).mp hp
    have hdots : ∀ t' ∈ facesOf icoIndices,
        GR.pos (V3.dot (icoVertices.getD t'.1 ⟨0, 0, 0⟩) (icoVertices.getD t'.2.1 ⟨0, 0, 0⟩)) ∧
          GR.pos (V3.dot (icoVertices.getD t'.2.1 ⟨0, 0, 0⟩)
            (icoVertices.getD t'.2.2 ⟨0, 0, 0⟩)) ∧
            GR.pos (V3.dot (icoVertices.getD t'.2.2 ⟨0, 0, 0⟩)
              (icoVertices.getD t'.1 ⟨0, 0, 0⟩)) := by
      rw [icoIndices_eq]
      decide
    obtain ⟨hp1, hp2, hp3⟩ := hdots t hti
    exact ⟨key _ h1 _ h2 hp1, key _ h2 _ h3 hp2, key _ h3 _ h1 hp3⟩

/-- The geometric invariant is preserved across all subdivision levels. -/
theorem subdivideLevels_geom :
    ∀ (L : ℕ) (s : MeshState (V3 ℝ)) (nf : ℕ), goodMesh s nf → geomGood s →
      geomGood (subdivideLevels midR s nf L)
  | 0, s, nf, _, hg => by simpa [subdivideLevels] using hg
  | L + 1, s, nf, hgm, hg => by
    show geomGood (subdivideLevels midR (levelStep midR s nf) (nf * 4) L)
    exact subdivideLevels_geom L _ _ (levelStep_good midR s nf hgm).1
      (levelStep_geom s nf hgm radiusR_pos hg)

/-- Every vertex of the real icosphere lies on the sphere of the program
radius, at every subdivision level. -/
theorem icosphereR_on_sphere (L : ℕ) :
    ∀ v ∈ (icosphereR L).mc.verts, magR v = radiusR := by
  have hbv : baseVertsR.length = 12 := by simp [baseVertsR, icoVertices]
  have hgeom : geomGood (icosphereR L) :=
    subdivideLevels_geom L _ 20 (goodMesh_base baseVertsR hbv) geomGood_base
  intro v hv
  have hq := hgeom.1 v hv
  rw [magR, V3.quad, hq]
  rw [show radiusR ^ 2 = radiusR * radiusR from sq radiusR ▸ rfl]
  exact Real.sqrt_mul_self radiusR_pos.le

theorem gmp_equiv {V : Type} [Inhabited V] (mid : V → V → V) (m1 m2 : MidCache V)
    (hv : m1.verts = m2.verts) (hc : cacheEquiv m1.cache m2.cache) (a b : ℕ) :
    (get_middle_point mid m1 a b).2 = (get_middle_point mid m2 a b).2 ∧
      (get_middle_point mid m1 a b).1.verts = (get_middle_point mid m2 a b).1.verts ∧
        cacheEquiv (get_middle_point mid m1 a b).1.cache
          (get_middle_point mid m2 a b).1.cache := by
  have hl := hc (canon a b)
  cases hcase : m2.cache.lookup (canon a b) with
  | some mm =>
    have h1 : m1.cache.lookup (canon a b) = some mm := by rw [hl, hcase]
    refine ⟨?_, ?_, ?_⟩
    · simp only [get_middle_point, h1, hcase]
    · simp only [get_middle_point, h1, hcase]
      exact hv
    · simp only [get_middle_point, h1, hcase]
      exact hc
  | none =>
    have h1 : m1.cache.lookup (canon a b) = none := by rw [hl, hcase]
    refine ⟨?_, ?_, ?_⟩
    · simp only [get_middle_point, h1, hcase]
      rw [hv]
    · simp only [get_middle_point, h1, hcase]
      rw [hv]
    · simp only [get_middle_point, h1, hcase]
      intro e
      rw [List.lookup_append, List.lookup_append, hc e, hv]

theorem processFace_equiv {V : Type} [Inhabited V] (mid : V → V → V)
    (s1 s2 : MeshState V) (hv : s1.mc.verts = s2.mc.verts)
    (hc : cacheEquiv s1.mc.cache s2.mc.cache) (hi : s1.indices = s2.indices) (f : ℕ) :
    (processFace mid s1 f).mc.verts = (processFace mid s2 f).mc.verts ∧
      cacheEquiv (processFace mid s1 f).mc.cache (processFace mid s2 f).mc.cache ∧
        (processFace mid s1 f).indices = (processFace mid s2 f).indices := by
  obtain ⟨h3i, h3v, h3c⟩ := gmp_equiv mid s1.mc s2.mc hv hc
    (s1.indices.getD (f * 3) 0) (s1.indices.getD (f * 3 + 1) 0)
  obtain ⟨h4i, h4v, h4c⟩ := gmp_equiv mid _ _ h3v h3c
    (s1.indices.getD (f * 3 + 1) 0) (s1.indices.getD (f * 3 + 2) 0)
  obtain ⟨h5i, h5v, h5c⟩ := gmp_equiv mid _ _ h4v h4c
    (s1.indices.getD (f * 3 + 2) 0) (s1.indices.getD (f * 3) 0)
  refine ⟨?_, ?_, ?_⟩
  · simp only [processFace, ← hi]
    exact h5v
  · simp only [processFace, ← hi]
    exact h5c
  · simp only [processFace, ← hi, h3i, h4i, h5i]

theorem foldl_processFace_equiv {V : Type} [Inhabited V] (mid : V → V → V) :
    ∀ (l : List ℕ) (s1 s2 : MeshState V), s1.mc.verts = s2.mc.verts →
      cacheEquiv s1.mc.cache s2.mc.cache → s1.indices = s2.indices →
      (l.foldl (processFace mid) s1).mc.verts = (l.foldl (processFace mid) s2).mc.verts ∧
        cacheEquiv (l.foldl (processFace mid) s1).mc.cache
          (l.foldl (processFace mid) s2).mc.cache ∧
          (l.foldl (processFace mid) s1).indices = (l.foldl (processFace mid) s2).indices
  | [], _, _, hv, hc, hi => ⟨hv, hc, hi⟩
  | f :: fs, s1, s2, hv, hc, hi => by
    simp only [List.foldl_cons]
    obtain ⟨h1, h2, h3⟩ := processFace_equiv mid s1 s2 hv hc hi f
    exact foldl_processFace_equiv mid fs _ _ h1 h2 h3

theorem subdivideLevels_equiv {V : Type} [Inhabited V] (mid : V → V → V) :
    ∀ (L : ℕ) (s1 s2 : MeshState V) (nf : ℕ), s1.mc.verts = s2.mc.verts →
      cacheEquiv s1.mc.cache s2.mc.cache → s1.indices = s2.indices →
      (subdivideLevels mid s1 nf L).mc.verts = (subdivideLevels mid s2 nf L).mc.verts ∧
        (subdivideLevels mid s1 nf L).indices = (subdivideLevels mid s2 nf L).indices
  | 0, _, _, _, hv, _, hi => ⟨hv, hi⟩
  | L + 1, s1, s2, nf, hv, hc, hi => by
    show (subdivideLevels mid (levelStep mid s1 nf) (nf * 4) L).mc.verts = _ ∧ _
    obtain ⟨h1, h2, h3⟩ := foldl_processFace_equiv mid (List.range nf) s1 s2 hv hc hi
    exact subdivideLevels_equiv mid L _ _ (nf * 4) h1 h2 h3

theorem subdivideLevels_succ {V : Type} [Inhabited V] (mid : V → V → V) :
    ∀ (L : ℕ) (s : MeshState V) (nf : ℕ),
      subdivideLevels mid s nf (L + 1) =
        levelStep mid (subdivideLevels mid s nf L) (nf * 4 ^ L)
  | 0, s, nf => by simp [subdivideLevels]
  | L + 1, s, nf => by
    show subdivideLevels mid (levelStep mid s nf) (nf * 4) (L + 1) = _
    rw [subdivideLevels_succ mid L (levelStep mid s nf) (nf * 4)]
    show _ = levelStep mid (subdivideLevels mid (levelStep mid s nf) (nf * 4) L) _
    congr 1
    ring

/-- C1: counterexample — the qualifying triple (0, 3, 4) passes the per-axis
sign-agreement test, yet the builder emits it with the last two indices
swapped, as face (0, 4, 3) (indeed the first emitted face), and the
unchanged face (0, 3, 4) never appears in the buffer; the claim states an
agreeing triple is emitted unchanged. -/
theorem c1_counterexample :
    ((0 : ℕ) < 3 ∧ (3 : ℕ) < 4 ∧ edgeLensOK 0 3 4) ∧ windingAgrees 0 3 4 ∧
      faceBlock 0 3 4 = [0, 4, 3] ∧ icoIndices.take 3 = [0, 4, 3] ∧
        (0, 4, 3) ∈ facesOf icoIndices ∧ (0, 3, 4) ∉ facesOf icoIndices := by
  rw [icoIndices_eq]
  decide

set_option maxRecDepth 8000 in
/-- C1: amended behavior — for every qualifying triple i<j<k, the emitted
face is (i, k, j), the swapped order, exactly when the per-axis sign test
agrees, and (i, j, k), unchanged, exactly when it disagrees: the opposite of
the claimed correspondence. -/
theorem c1_emission (i j k : ℕ) (h1 : i < j) (h2 : j < k) (h3 : k < 12)
    (hq : edgeLensOK i j k) :
    (if windingAgrees i j k then (i, k, j) else (i, j, k)) ∈ facesOf icoIndices := by
  have key : ∀ t ∈ ((List.range 12).flatMap fun a => (List.range 12).flatMap fun b =>
      (List.range 12).flatMap fun c => if a < b ∧ b < c then [(a, b, c)] else []),
      edgeLensOK t.1 t.2.1 t.2.2 →
      (if windingAgrees t.1 t.2.1 t.2.2 then (t.1, t.2.2, t.2.1) else t) ∈
        facesOf [0, 4, 3, 0, 3, 5, 0, 8, 4, 0, 5, 11, 0, 11, 8,
          1, 6, 2, 1, 2, 7, 1, 11, 6, 1, 7, 8, 1, 8, 11,
          2, 6, 10, 2, 9, 7, 2, 10, 9, 3, 4, 9, 3, 10, 5,
          3, 9, 10, 4, 8, 7, 4, 7, 9, 5, 10, 6, 5, 6, 11] := by decide
  have hmem : (i, j, k) ∈ ((List.range 12).flatMap fun a => (List.range 12).flatMap fun b =>
      (List.range 12).flatMap fun c => if a < b ∧ b < c then [(a, b, c)] else []) := by
    refine List.mem_flatMap.mpr ⟨i, List.mem_range.mpr (by omega), ?_⟩
    refine List.mem_flatMap.mpr ⟨j, List.mem_range.mpr (by omega), ?_⟩
    refine List.mem_flatMap.mpr ⟨k, List.mem_range.mpr (by omega), ?_⟩
    simp [h1, h2]
  rw [icoIndices_eq]
  exact key (i, j, k) hmem hq

theorem c1_emission_witness :
    ((0 : ℕ) < 3 ∧ (3 : ℕ) < 4 ∧ (4 : ℕ) < 12 ∧ edgeLensOK 0 3 4) ∧
      (if windingAgrees 0 3 4 then ((0 : ℕ), (4 : ℕ), (3 : ℕ)) else (0, 3, 4)) ∈
        facesOf icoIndices :=
  ⟨by decide, c1_emission 0 3 4 (by decide) (by decide) (by decide) (by decide)⟩

/-- C2: for every level L, the returned mesh has exactly
2 + 3·(20·4^L)/2 − 20·4^L vertices and 3·(20·4^L) indices; at level 0 that
is 12 vertices and 60 indices. -/
theorem c2_counts (L : ℕ) :
    (icosphereR L).mc.verts.length = 2 + 3 * (20 * 4 ^ L) / 2 - 20 * 4 ^ L ∧
      (icosphereR L).indices.length = 3 * (20 * 4 ^ L) := by
  have hbv : baseVertsR.length = 12 := by simp [baseVertsR, icoVertices]
  obtain ⟨-, hv, hi, -⟩ := icosphereModel_spec midR baseVertsR hbv L
  constructor
  · show (icosphereModel midR baseVertsR L).mc.verts.length = _
    rw [hv]
    generalize (4 : ℕ) ^ L = m
    omega
  · exact hi

set_option maxRecDepth 8000 in
/-- C3: the brute-force search ranges over exactly 220 ordered triples
i<j<k of the 12 vertices, the edge-length tolerance test accepts exactly 20
of them, and create_icosahedron returns exactly 60 indices. -/
theorem c3_twenty_faces :
    ((List.range 12).flatMap fun i => (List.range 12).flatMap fun j =>
        (List.range 12).flatMap fun k =>
          if i < j ∧ j < k then [(i, j, k)] else []).length = 220 ∧
      ((List.range 12).flatMap fun i => (List.range 12).flatMap fun j =>
          (List.range 12).flatMap fun k =>
            if i < j ∧ j < k ∧ edgeLensOK i j k then [(i, j, k)] else []).length = 20 ∧
        create_icosahedron.2.length = 60 := by decide

/-- C4: get_middle_point canonicalizes its argument pair so it is symmetric
in its two arguments; on a cache hit it returns the cached index and leaves
the state unchanged; on a miss it appends the midpoint of the two canonical
endpoint positions at index equal to the current vertex count, records that
index under the canonical key, and returns it. -/
theorem c4_cache_contract (c : MidCache (V3 ℝ)) (a b : ℕ) :
    get_middle_point midR c a b = get_middle_point midR c b a ∧
      (∀ m, c.cache.lookup (canon a b) = some m →
        get_middle_point midR c a b = (c, m)) ∧
      (c.cache.lookup (canon a b) = none →
        get_middle_point midR c a b =
          (⟨c.verts ++ [midR (c.verts.getD (canon a b).1 default)
                (c.verts.getD (canon a b).2 default)],
              c.cache ++ [(canon a b, c.verts.length)]⟩,
            c.verts.length)) := by
  refine ⟨?_, ?_, ?_⟩
  · unfold get_middle_point
    rw [canon_comm b a]
  · intro m hm
    simp only [get_middle_point, hm]
  · intro hm
    simp only [get_middle_point, hm]

/-- C5: at one subdivision level over a well-formed mesh there is a single
midpoint-index assignment μ on canonical (undirected) edges such that every
face (p0, p1, p2) present at the start of the level is rewritten in place to
(p0, p3, p5) in its original slot, the three faces (p3, p1, p4),
(p5, p4, p2), (p4, p5, p3) are appended after the original slots, grouped
per source face in source order (so no face created during the level is
re-subdivided within it), where p3 = μ(p0, p1), p4 = μ(p1, p2),
p5 = μ(p2, p0), and the vertex stored at each μ(e) is the midpoint function
applied to e's endpoint positions; the iteration bound is the face count nf
captured before any append. -/
theorem c5_subdivision_structure (s : MeshState (V3 ℝ)) (nf : ℕ)
    (hgm : goodMesh s nf) :
    ∃ μ : ℕ × ℕ → ℕ,
      facesOf (levelStep midR s nf).indices =
        (facesOf s.indices).map
            (fun t => (t.1, μ (canon t.1 t.2.1), μ (canon t.2.2 t.1))) ++
          (facesOf s.indices).flatMap (fun t =>
            [(μ (canon t.1 t.2.1), t.2.1, μ (canon t.2.1 t.2.2)),
             (μ (canon t.2.2 t.1), μ (canon t.2.1 t.2.2), t.2.2),
             (μ (canon t.2.1 t.2.2), μ (canon t.2.2 t.1), μ (canon t.1 t.2.1))]) ∧
        ∀ t ∈ facesOf s.indices, ∀ e ∈ edgesOf t,
          (levelStep midR s nf).mc.verts.getD (μ e) default =
            midR (s.mc.verts.getD e.1 default) (s.mc.verts.getD e.2 default) := by
  obtain ⟨hlen3, hgf, hknd, B, hB, hcache, hBe⟩ := hgm
  have hstep := levelStep_eq midR s nf hlen3
  have hedge : ∀ e ∈ allEdges (facesOf s.indices), e.1 < e.2 ∧ e.2 < s.mc.verts.length := by
    intro e he
    obtain ⟨t, ht, het⟩ := List.mem_flatMap.mp he
    exact ⟨edgesOf_fst_lt_snd (hgf.1 t ht).2 het, (edgesOf_endpoint_lt (hgf.1 t ht).1 het).2⟩
  have hK0dis : ∀ e ∈ allEdges (facesOf s.indices), e ∉ keysOf s.mc.cache := by
    intro e he hmem
    obtain ⟨kv, hkv, hkve⟩ := List.mem_map.mp hmem
    obtain ⟨t, ht, het⟩ := List.mem_flatMap.mp he
    have h1 := (hcache kv hkv).2.1
    have h2 := hBe t ht _ het
    rw [hkve] at h1
    omega
  obtain ⟨K2, hcF, hkeysF, hK2key, hallmem, hvalsF, hlenF, hwF, hrwF, hapF, hposF⟩ :=
    levelFaces_spec midR s.mc.cache s.mc.verts.length (facesOf s.indices) s.mc []
      (by simp) hedge hK0dis (by simpa using hknd) rfl (by simp)
  simp only [List.nil_append, List.length_nil, Nat.zero_add] at hcF hkeysF hallmem hvalsF hlenF
  have hμsome : ∀ e ∈ allEdges (facesOf s.indices),
      ∃ kv ∈ K2, kv.1 = e ∧
        lookupIdx (levelFaces midR s.mc (facesOf s.indices)).1.cache e = kv.2 := by
    intro e he
    have hek : e ∈ keysOf K2 := hallmem e he
    obtain ⟨kv, hkv, hkve⟩ := List.mem_map.mp hek
    have hkNd : (keysOf K2).Nodup := by
      rw [keysOf_append] at hkeysF
      exact (List.nodup_append.mp hkeysF).2.1
    have hlk : K2.lookup kv.1 = some kv.2 := lookup_of_mem_nodup hkNd hkv
    have hnone : s.mc.cache.lookup e = none :=
      lookup_eq_none_of_not_mem_keys (hK0dis e he)
    refine ⟨kv, hkv, hkve, ?_⟩
    rw [lookupIdx, hcF, List.lookup_append, hnone]
    rw [hkve] at hlk
    simp [hlk]
  have hfaces' : facesOf (levelStep midR s nf).indices =
      childrenOf (lookupIdx (levelFaces midR s.mc (facesOf s.indices)).1.cache)
        (facesOf s.indices) := by
    rw [hstep]
    show facesOf (flatOf _ ++ flatOf _) = _
    rw [← flatOf_append, facesOf_flatOf, childrenOf, hrwF, hapF]
  have hmc' : (levelStep midR s nf).mc = (levelFaces midR s.mc (facesOf s.indices)).1 := by
    rw [hstep]
  obtain ⟨w, hw⟩ := hwF
  have hstable : ∀ i < s.mc.verts.length,
      (levelFaces midR s.mc (facesOf s.indices)).1.verts.getD i default =
        s.mc.verts.getD i default := by
    intro i hi
    rw [hw]
    exact getD_append_left hi _
  refine ⟨lookupIdx (levelFaces midR s.mc (facesOf s.indices)).1.cache, ?_, ?_⟩
  · rw [hfaces']
    simp only [childrenOf, rwFace, apFaces, midOf]
  · intro t ht e he
    have hea := edges_mem_allEdges ht he
    obtain ⟨kv, hkv, hkve, hlk⟩ := hμsome e hea
    have hbnds := hedge e hea
    have hpos := hposF kv hkv
    rw [hkve] at hpos
    rw [hstable e.1 (by omega), hstable e.2 (by omega)] at hpos
    rw [hmc', hlk]
    exact hpos

theorem c5_witness :
    goodMesh (⟨⟨baseVertsR, []⟩, icoIndices⟩ : MeshState (V3 ℝ)) 20 ∧
      ∃ μ : ℕ × ℕ → ℕ,
        facesOf (levelStep midR ⟨⟨baseVertsR, []⟩, icoIndices⟩ 20).indices =
          (facesOf icoIndices).map
              (fun t => (t.1, μ (canon t.1 t.2.1), μ (canon t.2.2 t.1))) ++
            (facesOf icoIndices).flatMap (fun t =>
              [(μ (canon t.1 t.2.1), t.2.1, μ (canon t.2.1 t.2.2)),
               (μ (canon t.2.2 t.1), μ (canon t.2.1 t.2.2), t.2.2),
               (μ (canon t.2.1 t.2.2), μ (canon t.2.2 t.1), μ (canon t.1 t.2.1))]) ∧
          ∀ t ∈ facesOf icoIndices, ∀ e ∈ edgesOf t,
            (levelStep midR ⟨⟨baseVertsR, []⟩, icoIndices⟩ 20).mc.verts.getD (μ e) default =
              midR (baseVertsR.getD e.1 default) (baseVertsR.getD e.2 default) := by
  have hgm : goodMesh (⟨⟨baseVertsR, []⟩, icoIndices⟩ : MeshState (V3 ℝ)) 20 :=
    goodMesh_base baseVertsR (by simp [baseVertsR, icoVertices])
  exact ⟨hgm, c5_subdivision_structure _ 20 hgm⟩

/-- C6: every vertex of the mesh at every subdivision level has magnitude
equal to the magnitude of the first base-icosahedron vertex (the program
radius), exactly, in the real-arithmetic model. -/
theorem c6_vertex_magnitude (L : ℕ) :
    ∀ v ∈ (icosphereR L).mc.verts, magR v = magR (baseVertsR.getD 0 default) :=
  icosphereR_on_sphere L

theorem c6_witness :
    toR3 ⟨1, GR.tau, 0⟩ ∈ (icosphereR 0).mc.verts ∧
      magR (toR3 ⟨1, GR.tau, 0⟩) = magR (baseVertsR.getD 0 default) := by
  have hm : toR3 ⟨1, GR.tau, 0⟩ ∈ (icosphereR 0).mc.verts := by
    show toR3 ⟨1, GR.tau, 0⟩ ∈ baseVertsR
    exact List.mem_map_of_mem toR3 (by decide)
  exact ⟨hm, c6_vertex_magnitude 0 _ hm⟩

/-- C7: the source never rejects a large subdivision level: the count
formulas are evaluated with wrapping usize arithmetic and each created
vertex index passes through the truncating cast `index as u32`.  At level 15
the true vertex count 2 + 10·4^15 already exceeds 2^32, where the u32 cast
silently collapses distinct indices, and at level 32 the usize power
4usize.pow(32) wraps to 0, collapsing the computed counts themselves; no
error path exists. -/
theorem c7_silent_overflow :
    finalVerticesModel 15 = 2 + 10 * 4 ^ 15 ∧
      2 ^ 32 < 2 + 10 * 4 ^ 15 ∧
        u32cast (2 ^ 32 + 2) = 2 ∧ (2 : ℕ) ^ 32 + 2 ≠ 2 ∧
          finalFacesModel 32 = 0 ∧ finalIndicesModel 32 = 0 ∧
            finalVerticesModel 32 = 2 := by decide

/-- C8: every face triple of the index buffer at every subdivision level has
three pairwise distinct index values, each strictly below the length of the
vertex sequence. -/
theorem c8_face_indices (L : ℕ) :
    ∀ t ∈ facesOf (icosphereR L).indices,
      (t.1 ≠ t.2.1 ∧ t.2.1 ≠ t.2.2 ∧ t.2.2 ≠ t.1) ∧
        t.1 < (icosphereR L).mc.verts.length ∧
          t.2.1 < (icosphereR L).mc.verts.length ∧
            t.2.2 < (icosphereR L).mc.verts.length := by
  have hbv : baseVertsR.length = 12 := by simp [baseVertsR, icoVertices]
  have hgm := (icosphereModel_spec midR baseVertsR hbv L).1
  intro t ht
  have h := hgm.2.1.1 t ht
  exact ⟨h.2, h.1.1, h.1.2.1, h.1.2.2⟩

theorem c8_witness :
    (0, 4, 3) ∈ facesOf (icosphereR 0).indices ∧
      (((0 : ℕ) ≠ 4 ∧ (4 : ℕ) ≠ 3 ∧ (3 : ℕ) ≠ 0) ∧
        0 < (icosphereR 0).mc.verts.length ∧
          4 < (icosphereR 0).mc.verts.length ∧
            3 < (icosphereR 0).mc.verts.length) := by
  have hm : (0, 4, 3) ∈ facesOf (icosphereR 0).indices := by
    show (0, 4, 3) ∈ facesOf icoIndices
    rw [icoIndices_eq]
    decide
  exact ⟨hm, c8_face_indices 0 (0, 4, 3) hm⟩

/-- C9: generation is deterministic and independent of the cache's
representation: starting from any two midpoint caches that agree on every
lookup (as the HashMap of the source is consulted only through get), the
same subdivision level produces identical vertex sequences and identical
index sequences; in particular two invocations from the empty cache are
bit-identical. -/
theorem c9_deterministic (L : ℕ) (c1 c2 : List ((ℕ × ℕ) × ℕ)) (h : cacheEquiv c1 c2) :
    (subdivideLevels midR ⟨⟨baseVertsR, c1⟩, icoIndices⟩ 20 L).mc.verts =
        (subdivideLevels midR ⟨⟨baseVertsR, c2⟩, icoIndices⟩ 20 L).mc.verts ∧
      (subdivideLevels midR ⟨⟨baseVertsR, c1⟩, icoIndices⟩ 20 L).indices =
        (subdivideLevels midR ⟨⟨baseVertsR, c2⟩, icoIndices⟩ 20 L).indices :=
  subdivideLevels_equiv midR L _ _ 20 rfl h rfl

theorem c9_witness :
    cacheEquiv [((1, 2), 7), ((3, 4), 8)] [((3, 4), 8), ((1, 2), 7)] ∧
      ((subdivideLevels midR ⟨⟨baseVertsR, [((1, 2), 7), ((3, 4), 8)]⟩, icoIndices⟩ 20 1).mc.verts =
          (subdivideLevels midR ⟨⟨baseVertsR, [((3, 4), 8), ((1, 2), 7)]⟩, icoIndices⟩ 20 1).mc.verts ∧
        (subdivideLevels midR ⟨⟨baseVertsR, [((1, 2), 7), ((3, 4), 8)]⟩, icoIndices⟩ 20 1).indices =
          (subdivideLevels midR ⟨⟨baseVertsR, [((3, 4), 8), ((1, 2), 7)]⟩, icoIndices⟩ 20 1).indices) := by
  have h : cacheEquiv [((1, 2), 7), ((3, 4), 8)] [((3, 4), 8), ((1, 2), 7)] := by
    intro e
    by_cases h1 : e = ((1 : ℕ), (2 : ℕ))
    · subst h1
      rfl
    · by_cases h2 : e = ((3 : ℕ), (4 : ℕ))
      · subst h2
        rfl
      · have e1 : (e == ((1 : ℕ), (2 : ℕ))) = false := beq_false_of_ne h1
        have e2 : (e == ((3 : ℕ), (4 : ℕ))) = false := beq_false_of_ne h2
        simp [List.lookup, e1, e2]
  exact ⟨h, c9_deterministic 1 _ _ h⟩

/-- C10: the vertex sequence is append-only across generation: for every
level L the first 12 vertices of the output are exactly the 12 base
icosahedron vertices with unchanged coordinates, and the vertex sequence of
level L + 1 extends that of level L, so every vertex keeps its index from
the moment it is created. -/
theorem c10_append_only (L : ℕ) :
    (icosphereR L).mc.verts.take 12 = baseVertsR ∧
      ∃ t, (icosphereR (L + 1)).mc.verts = (icosphereR L).mc.verts ++ t := by
  have hbv : baseVertsR.length = 12 := by simp [baseVertsR, icoVertices]
  obtain ⟨hgm, -, -, w, hw⟩ := icosphereModel_spec midR baseVertsR hbv L
  constructor
  · show (icosphereModel midR baseVertsR L).mc.verts.take 12 = _
    rw [hw, ← hbv, List.take_left]
  · show ∃ t, (subdivideLevels midR ⟨⟨baseVertsR, []⟩, icoIndices⟩ 20 (L + 1)).mc.verts =
      (icosphereR L).mc.verts ++ t
    rw [subdivideLevels_succ midR L ⟨⟨baseVertsR, []⟩, icoIndices⟩ 20]
    exact (levelStep_good midR (icosphereR L) (20 * 4 ^ L) hgm).2.1
